import Mathlib

/-!
# Verification of the ghostty-ai test-generation and repair scripts

This development shallowly embeds the text transformations and control
flow of the six Python scripts under `scripts/` (`fix_arraylist_deinit.py`,
`fix_tests.py`, `fix_tests_comprehensive.py`, `generate_ai_tests.py`,
`generate_coverage_tests.py`, `add_inline_tests.py`) and proves or refutes
the specification's claims about them.

Text is modelled as `List Char`.  Each Python `re.sub` call is embedded as
a hand-compiled deterministic matcher (the patterns used by the scripts
are all deterministic: their character classes are pairwise disjoint at
every choice point, so greedy matching never needs to backtrack except
where noted), driven by a generic left-to-right non-overlapping scanning
combinator mirroring `re.sub` semantics: scan positions left to right, on
a match emit the replacement and resume immediately after the matched
region, otherwise copy one character and advance.
-/

namespace GhosttyAi

/-- Python regex `\w` on ASCII input: letters, digits and underscore. -/
def isWordChar (c : Char) : Bool := c.isAlphanum || c == '_'

/-- Python regex `\s` / `str.strip` whitespace on ASCII input. -/
def isPySpace (c : Char) : Bool :=
  c == ' ' || c == '\t' || c == '\n' || c == '\r' || c == '\x0b' || c == '\x0c'

/-- Number of occurrences of a single character in a string (Python `str.count` of
a one-character needle). -/
def countChar (c : Char) : List Char → Nat
  | [] => 0
  | d :: rest => (if d == c then 1 else 0) + countChar c rest

/-- Number of non-overlapping occurrences of a (nonempty) substring, leftmost
first — Python `str.count`.  The `skip` counter consumes the remainder of a
matched occurrence one character at a time, keeping the recursion
structural. -/
def countSubA (p : List Char) : Nat → List Char → Nat
  | _, [] => 0
  | skip + 1, _ :: rest => countSubA p skip rest
  | 0, c :: rest =>
    if p.isPrefixOf (c :: rest) then 1 + countSubA p (p.length - 1) rest
    else countSubA p 0 rest

def countSub (p s : List Char) : Nat := countSubA p 0 s

/-- Python `needle in haystack` substring test. -/
def containsSub (p : List Char) : List Char → Bool
  | [] => p.isEmpty
  | c :: rest => p.isPrefixOf (c :: rest) || containsSub p rest

/-- Python `str.strip()`: drop whitespace from both ends. -/
def stripP (s : List Char) : List Char :=
  ((s.dropWhile isPySpace).reverse.dropWhile isPySpace).reverse

/-- Python `str.split('\n')`. -/
def splitNl : List Char → List (List Char)
  | [] => [[]]
  | c :: rest =>
    if c == '\n' then [] :: splitNl rest
    else
      match splitNl rest with
      | [] => [[c]]
      | l :: ls => (c :: l) :: ls

/-- Python `'\n'.join(...)`. -/
def joinNl : List (List Char) → List Char
  | [] => []
  | [l] => l
  | l :: ls => l ++ '\n' :: joinNl ls

/-- Generic embedding of `re.sub`: scan positions left to right; the matcher `m`
receives the reversed already-scanned prefix of the subject string (so it can
test anchors and lookbehinds) and the current suffix, and returns the match
length together with the replacement text.  On a match the replacement is
emitted and scanning resumes immediately after the matched region (Python's
non-overlapping semantics); otherwise one character is copied and the scan
advances.  All matchers in this file return positive lengths. -/
def subCtx (m : List Char → List Char → Option (Nat × List Char)) :
    Nat → List Char → List Char → List Char
  | _, _, [] => []
  | skip + 1, rp, c :: rest => subCtx m skip (c :: rp) rest
  | 0, rp, c :: rest =>
    match m rp (c :: rest) with
    | some (n, r) => r ++ subCtx m (n - 1) (c :: rp) rest
    | none => c :: subCtx m 0 (c :: rp) rest

/-- Run a substitution over a whole string (empty scanned prefix). -/
def runSub (m : List Char → List Char → Option (Nat × List Char)) (s : List Char) :
    List Char :=
  subCtx m 0 [] s

/-- `re.MULTILINE` `^`: the scan position is the string start or just after a
newline. -/
def atLineStart (rp : List Char) : Bool :=
  match rp with
  | [] => true
  | c :: _ => c == '\n'

/-- Match a literal at the head of the suffix, returning the remainder. -/
def strLit (lit s : List Char) : Option (List Char) :=
  if lit.isPrefixOf s then some (s.drop lit.length) else none

/-!
## `fix_tests_comprehensive.py` — `fix_test_file`

The transform applies six `re.sub`/line-level rewrites in order:
1. remove `^const module\.\w+ = module\.\w+;\s*\n` lines,
2. remove `^pub const module\.\w+.*?;\s*\n` lines,
3. drop duplicate `const std = @import("std");` lines (keep the first),
4. clear `^bash\s*$` and `^zig\s*$` artifact lines,
5. rewrite `var\s+(\w+)\s*=\s*const\s+` to `const \1 = `,
6. collapse `\n{3,}` to `\n\n`.
-/

/-- Greedy `\s*\n` tail: consume the whitespace run up to and including its
last newline (regex backtracking leaves any trailing non-newline whitespace
unconsumed); fails when the run contains no newline. -/
def lastNlLen (s : List Char) : Option Nat :=
  let w := s.takeWhile isPySpace
  match w.reverse.findIdx? (fun c => c == '\n') with
  | some k => some (w.length - k)
  | none => none

def constModuleLit : List Char := "const module.".data

def eqModuleLit : List Char := " = module.".data

/-- Matcher for rule 1, `^const module\.\w+ = module\.\w+;\s*\n` (replaced by
the empty string). -/
def mRule1 (rp s : List Char) : Option (Nat × List Char) :=
  if !atLineStart rp then none else
  match strLit constModuleLit s with
  | none => none
  | some r1 =>
    let n1 := (r1.takeWhile isWordChar).length
    if n1 == 0 then none else
    match strLit eqModuleLit (r1.drop n1) with
    | none => none
    | some r2 =>
      let n2 := (r2.takeWhile isWordChar).length
      if n2 == 0 then none else
      match strLit [';'] (r2.drop n2) with
      | none => none
      | some r3 =>
        match lastNlLen r3 with
        | none => none
        | some n3 =>
          some (constModuleLit.length + n1 + eqModuleLit.length + n2 + 1 + n3, [])

def pubConstModuleLit : List Char := "pub const module.".data

/-- Lazy `.*?;\s*\n` (with `.` not matching newlines): scan forward on the
current line for the first `;` that is followed by a `\s*\n` match, and return
the total number of characters consumed. -/
def lazySemiNl : List Char → Option Nat
  | [] => none
  | c :: rest =>
    if c == '\n' then none
    else if c == ';' then
      match lastNlLen rest with
      | some k => some (1 + k)
      | none =>
        match lazySemiNl rest with
        | some k => some (1 + k)
        | none => none
    else
      match lazySemiNl rest with
      | some k => some (1 + k)
      | none => none

/-- Matcher for rule 2, `^pub const module\.\w+.*?;\s*\n` (replaced by the
empty string). -/
def mRule2 (rp s : List Char) : Option (Nat × List Char) :=
  if !atLineStart rp then none else
  match strLit pubConstModuleLit s with
  | none => none
  | some r1 =>
    let n1 := (r1.takeWhile isWordChar).length
    if n1 == 0 then none else
    match lazySemiNl (r1.drop n1) with
    | none => none
    | some n2 => some (pubConstModuleLit.length + n1 + n2, [])

def stdImportLine : List Char := "const std = @import(\"std\");".data

/-- Rule 3 over the list of lines: keep only the first
`const std = @import("std");` line (compared after `strip()`). -/
def dedupeStdAux : Bool → List (List Char) → List (List Char)
  | _, [] => []
  | seen, l :: ls =>
    if stripP l = stdImportLine then
      if seen then dedupeStdAux true ls else l :: dedupeStdAux true ls
    else l :: dedupeStdAux seen ls

/-- Rule 3: remove duplicate standard-library import lines, keeping the first. -/
def dedupeStd (s : List Char) : List Char :=
  joinNl (dedupeStdAux false (splitNl s))

def bashLit : List Char := "bash".data

def zigLit : List Char := "zig".data

/-- Matcher for rule 4, `^TOKEN\s*$` under `re.MULTILINE` (replaced by the
empty string): after the token, greedy `\s*` backtracks so that `$` holds —
either the string ends after the whitespace run, or the scan stops just before
the last newline inside the run. -/
def mLineToken (tok : List Char) (rp s : List Char) : Option (Nat × List Char) :=
  if !atLineStart rp then none else
  match strLit tok s with
  | none => none
  | some r1 =>
    let w := r1.takeWhile isPySpace
    if r1.length == w.length then some (tok.length + w.length, [])
    else
      match w.reverse.findIdx? (fun c => c == '\n') with
      | some k => some (tok.length + (w.length - 1 - k), [])
      | none => none

def varLit : List Char := "var".data

def constLit : List Char := "const".data

/-- Matcher for rule 5, `var\s+(\w+)\s*=\s*const\s+`, replaced by
`const \1 = `. -/
def mRule5 (rp s : List Char) : Option (Nat × List Char) :=
  match strLit varLit s with
  | none => none
  | some r1 =>
    let w1 := (r1.takeWhile isPySpace).length
    if w1 == 0 then none else
    let r2 := r1.drop w1
    let name := r2.takeWhile isWordChar
    if name.length == 0 then none else
    let r3 := r2.drop name.length
    let w2 := (r3.takeWhile isPySpace).length
    match strLit ['='] (r3.drop w2) with
    | none => none
    | some r4 =>
      let w3 := (r4.takeWhile isPySpace).length
      match strLit constLit (r4.drop w3) with
      | none => none
      | some r5 =>
        let w4 := (r5.takeWhile isPySpace).length
        if w4 == 0 then none else
        some (varLit.length + w1 + name.length + w2 + 1 + w3 + constLit.length + w4,
          "const ".data ++ name ++ " = ".data)

/-- Matcher for rule 6, `\n{3,}`, replaced by `\n\n`. -/
def mRule6 (rp s : List Char) : Option (Nat × List Char) :=
  let k := (s.takeWhile (fun c => c == '\n')).length
  if 3 ≤ k then some (k, ['\n', '\n']) else none

/-- The whole-text transform of `fix_test_file` in
`fix_tests_comprehensive.py` (rules 1–6 in program order). -/
def fixComprehensiveText (s : List Char) : List Char :=
  let s1 := runSub mRule1 s
  let s2 := runSub mRule2 s1
  let s3 := dedupeStd s2
  let s4 := runSub (mLineToken bashLit) s3
  let s5 := runSub (mLineToken zigLit) s4
  let s6 := runSub mRule5 s5
  runSub mRule6 s6

/-!
## Code extraction from backend responses

`generate_ai_tests.extract_zig_tests`, `generate_coverage_tests.extract_zig_code`
and `add_inline_tests.extract_tests` all split the response on fence markers.
-/

/-- Python `str.split(sep)` for a nonempty separator: split on each
non-overlapping occurrence, leftmost first.  The `skip` counter consumes the
remainder of a matched separator, keeping the recursion structural. -/
def splitSubA (sep : List Char) : Nat → List Char → List (List Char)
  | _, [] => [[]]
  | skip + 1, _ :: rest => splitSubA sep skip rest
  | 0, c :: rest =>
    if sep.isPrefixOf (c :: rest) then
      [] :: splitSubA sep (sep.length - 1) rest
    else
      match splitSubA sep 0 rest with
      | [] => [[c]]
      | l :: ls => (c :: l) :: ls

def splitSub (sep s : List Char) : List (List Char) := splitSubA sep 0 s

def fenceLit : List Char := "```".data

def zigFenceLit : List Char := "```zig".data

def zigNlLit : List Char := "zig\n".data

/-- `generate_coverage_tests.extract_zig_code`: content of the first
zig-tagged fenced block, else of the first plain fenced block (minus a
leading `zig` language tag), else the stripped response. -/
def extractZigCode (r : List Char) : List Char :=
  if containsSub zigFenceLit r then
    let parts := splitSub zigFenceLit r
    if 1 < parts.length then
      stripP (((splitSub fenceLit (parts.getD 1 [])).getD 0 []))
    else stripP r
  else if containsSub fenceLit r then
    let parts := splitSub fenceLit r
    if 1 < parts.length then
      let code := parts.getD 1 []
      let code := if zigNlLit.isPrefixOf code then code.drop 4 else code
      stripP code
    else stripP r
  else stripP r

/-- `add_inline_tests.extract_tests`: same block extraction, but the final
fallback returns the empty string. -/
def extractTests (r : List Char) : List Char :=
  if containsSub zigFenceLit r then
    let parts := splitSub zigFenceLit r
    if 1 < parts.length then
      stripP (((splitSub fenceLit (parts.getD 1 [])).getD 0 []))
    else []
  else if containsSub fenceLit r then
    let parts := splitSub fenceLit r
    if 1 < parts.length then
      let code := parts.getD 1 []
      let code := if zigNlLit.isPrefixOf code then code.drop 4 else code
      stripP code
    else []
  else []

def constStdImportHead : List Char := "const std = @import(\"std\")".data

def constTestingHead : List Char := "const testing = std.testing".data

def constModuleImportHead : List Char := "const module = @import(".data

def atImportQuote : List Char := "@import(\"".data

def dotZigQuote : List Char := ".zig\")".data

def eqAtImportQuote : List Char := "= @import(\"".data

def constSpaceLit : List Char := "const ".data

/-- The per-line filter of `extract_zig_tests`: skip import lines that
duplicate the generated header. -/
def isHeaderDupLine (line : List Char) : Bool :=
  let st := stripP line
  constStdImportHead.isPrefixOf st ||
  constTestingHead.isPrefixOf st ||
  constModuleImportHead.isPrefixOf st ||
  (containsSub atImportQuote st && containsSub dotZigQuote st &&
    constSpaceLit.isPrefixOf st && containsSub eqAtImportQuote st)

/-- `generate_ai_tests.extract_zig_tests`: block extraction as above (with the
stripped whole response as fallback), then removal of header-duplicate import
lines, then a final `strip()`. -/
def extractZigTests (r : List Char) : List Char :=
  let code :=
    if containsSub zigFenceLit r then
      let parts := splitSub zigFenceLit r
      if 1 < parts.length then
        stripP (((splitSub fenceLit (parts.getD 1 [])).getD 0 []))
      else []
    else if containsSub fenceLit r then
      let parts := splitSub fenceLit r
      if 1 < parts.length then
        let code := parts.getD 1 []
        let code := if zigNlLit.isPrefixOf code then code.drop 4 else code
        stripP code
      else []
    else stripP r
  stripP (joinNl ((splitNl code).filter (fun l => !isHeaderDupLine l)))

/-!
## Write decisions of the three generation entry points

For each entry point we model the per-module acceptance decision applied to
the backend response: `some code` means the code is written/appended, `none`
means the module is counted failed/skipped and nothing is written.
-/

/-- `generate_coverage_tests.main`: accept iff the response is nonempty and the
extracted code is nonempty and longer than 100 characters. -/
def coverageDecision (response : List Char) : Option (List Char) :=
  if response.isEmpty then none
  else
    let t := extractZigCode response
    if !t.isEmpty && 100 < t.length then some t else none

/-- `add_inline_tests.main`: accept iff the response is nonempty and the
extracted code is nonempty and longer than 100 characters. -/
def addInlineDecision (response : List Char) : Option (List Char) :=
  if response.isEmpty then none
  else
    let t := extractTests response
    if !t.isEmpty && 100 < t.length then some t else none

/-- `generate_ai_tests.main`: accept iff the response is nonempty and the
extracted code is nonempty — there is no length threshold. -/
def genAiDecision (response : List Char) : Option (List Char) :=
  if response.isEmpty then none
  else
    let t := extractZigTests response
    if !t.isEmpty then some t else none

/-- Effect of one `generate_coverage_tests` module iteration on the test file
and the `(enhanced, skipped)` counters: on acceptance the code is appended
after a separator banner, otherwise the file is untouched. -/
def coverageStep (response : List Char) (testFile : List Char) (stats : Nat × Nat) :
    List Char × (Nat × Nat) :=
  match coverageDecision response with
  | some t => (testFile ++ "\n\n// sep\n\n".data ++ t, (stats.1 + 1, stats.2))
  | none => (testFile, (stats.1, stats.2 + 1))

/-!
## Credential rotation (`generate_ai_tests.py`, `generate_coverage_tests.py`)

Both scripts run `for attempt in range(len(clients))`: submit with the current
client; on a rate-limit/quota error rotate to `(idx+1) % len(clients)` and
continue; on any other error return an empty result at once; if the loop
exhausts all `len(clients)` attempts, return an empty result.
-/

inductive BackendResult where
  | success (text : List Char)
  | rateLimit
  | otherError
deriving DecidableEq, Repr

inductive LoopOutcome where
  | got (text : List Char)
  | abortedError
  | exhausted
deriving DecidableEq, Repr

/-- The retry loop: `backend i` is the backend's response when submitting with
client `i`; `n` is the pool size; `idx` the current rotation index; the fuel
argument is the number of remaining loop iterations (started at `n`).  Returns
the list of client indices actually submitted with, the rotation index after
the loop, and the outcome. -/
def runAttempts (backend : Nat → BackendResult) (n : Nat) :
    Nat → Nat → List Nat × Nat × LoopOutcome
  | idx, 0 => ([], idx, .exhausted)
  | idx, k + 1 =>
    match backend idx with
    | .success t => ([idx], idx, .got t)
    | .rateLimit =>
      let r := runAttempts backend n ((idx + 1) % n) k
      (idx :: r.1, r.2.1, r.2.2)
    | .otherError => ([idx], idx, .abortedError)

/-- Entry point: `for attempt in range(len(clients))` starts with fuel `n`. -/
def attemptLoop (backend : Nat → BackendResult) (n idx : Nat) :
    List Nat × Nat × LoopOutcome :=
  runAttempts backend n idx n

/-- One whole module of `generate_ai_tests.main`: the analysis call site
(`analyze_zig_file`) runs its full retry loop; whether or not it succeeds,
`main` falls back to a default analysis and the generation call site
(`generate_tests`) runs its own full retry loop.  Returns the client indices
submitted with across the module. -/
def genAiModuleSubmissions (backendA backendG : Nat → BackendResult) (n idx : Nat) :
    List Nat :=
  let a := attemptLoop backendA n idx
  let g := attemptLoop backendG n a.2.1
  a.1 ++ g.1

/-!
## `fix_arraylist_deinit.py` — `detect_allocator_name`

`re.search` is tried for six patterns in a fixed priority order; the first
pattern with a match anywhere in the file decides the name.
-/

def stdTestingAllocLit : List Char := "std.testing.allocator".data

/-- One allocator-declaration pattern
`KW\s+(NAME)\s*=` optionally followed by `\s*std\.testing\.allocator`,
matched at the head of a suffix. -/
def matchAllocDecl (kw name : List Char) (requireStd : Bool) (s : List Char) : Bool :=
  match strLit kw s with
  | none => false
  | some r1 =>
    let w1 := (r1.takeWhile isPySpace).length
    if w1 == 0 then false else
    match strLit name (r1.drop w1) with
    | none => false
    | some r2 =>
      let w2 := (r2.takeWhile isPySpace).length
      match strLit ['='] (r2.drop w2) with
      | none => false
      | some r3 =>
        if requireStd then
          let w3 := (r3.takeWhile isPySpace).length
          stdTestingAllocLit.isPrefixOf (r3.drop w3)
        else true

/-- `re.search`: does the head matcher succeed at any position? -/
def searchSuffix (f : List Char → Bool) : List Char → Bool
  | [] => f []
  | c :: rest => f (c :: rest) || searchSuffix f rest

def allocLit : List Char := "alloc".data

def allocatorLit : List Char := "allocator".data

def gpaLit : List Char := "gpa".data

def allyLit : List Char := "ally".data

/-- The six patterns of `detect_allocator_name`, in source order, paired with
the name each one returns (its capture group is a fixed literal). -/
def allocPatterns : List ((List Char → Bool) × String) :=
  [(matchAllocDecl constLit allocLit true, "alloc"),
   (matchAllocDecl constLit allocatorLit true, "allocator"),
   (matchAllocDecl constLit gpaLit false, "gpa"),
   (matchAllocDecl constLit allyLit false, "ally"),
   (matchAllocDecl varLit allocLit true, "alloc"),
   (matchAllocDecl varLit allocatorLit true, "allocator")]

/-- `detect_allocator_name`: first pattern (in priority order) with a match
anywhere wins; otherwise fall back to `std.testing.allocator` when that
reference occurs in the text, else to `alloc`. -/
def detectAllocatorName (s : List Char) : String :=
  match allocPatterns.find? (fun p => searchSuffix p.1 s) with
  | some p => p.2
  | none =>
    if containsSub stdTestingAllocLit s then "std.testing.allocator" else "alloc"

/-- The name at the positionally-first occurrence of any recognized pattern in
the file (the reading the specification's claim describes): scan positions
left to right and, at the first position where some pattern matches, return
the name of the first such pattern. -/
def firstOccName : List Char → Option String
  | [] => (allocPatterns.find? (fun p => p.1 [])).map (fun p => p.2)
  | c :: rest =>
    match allocPatterns.find? (fun p => p.1 (c :: rest)) with
    | some p => some p.2
    | none => firstOccName rest

/-!
## `fix_tests.py` — `fix_test_file`

Per mapped file name, three qualification rewrites per type name and one
allow-list `deinit` rewrite.
-/

def moduleDotLit : List Char := "module.".data

def moduleDotRev : List Char := "module.".data.reverse

def atImportQuoteRev : List Char := "@import(\"".data.reverse

/-- Matcher for
`(?<!module\.)(?<!["\'])(?<!\@import\(")(?<=[\s\(,=])(T)(?=[\s\.\(,\)])`
(replaced by `module.\1`). -/
def mQualify (t : List Char) (rp s : List Char) : Option (Nat × List Char) :=
  match rp with
  | [] => none
  | p :: _ =>
    if !(isPySpace p || p == '(' || p == ',' || p == '=') then none else
    if moduleDotRev.isPrefixOf rp then none else
    if p == '"' || p == '\'' then none else
    if atImportQuoteRev.isPrefixOf rp then none else
    match strLit t s with
    | none => none
    | some r1 =>
      match r1 with
      | [] => none
      | q :: _ =>
        if isPySpace q || q == '.' || q == '(' || q == ',' || q == ')' then
          some (t.length, moduleDotLit ++ t)
        else none

/-- Matcher for `^(\s*)(var|const)\s+(\w+)\s*=\s*(T)\.` under `re.MULTILINE`
(replaced by `\1\2 \3 = module.\4.`). -/
def mDeclInit (t : List Char) (rp s : List Char) : Option (Nat × List Char) :=
  if !atLineStart rp then none else
  let g1 := s.takeWhile isPySpace
  let r0 := s.drop g1.length
  let kwOpt :=
    match strLit varLit r0 with
    | some r => some (varLit, r)
    | none =>
      match strLit constLit r0 with
      | some r => some (constLit, r)
      | none => none
  match kwOpt with
  | none => none
  | some (kw, r1) =>
    let w1 := (r1.takeWhile isPySpace).length
    if w1 == 0 then none else
    let r2 := r1.drop w1
    let name := r2.takeWhile isWordChar
    if name.length == 0 then none else
    let r3 := r2.drop name.length
    let w2 := (r3.takeWhile isPySpace).length
    match strLit ['='] (r3.drop w2) with
    | none => none
    | some r4 =>
      let w3 := (r4.takeWhile isPySpace).length
      match strLit t (r4.drop w3) with
      | none => none
      | some r5 =>
        match strLit ['.'] r5 with
        | none => none
        | some _ =>
          some (g1.length + kw.length + w1 + name.length + w2 + 1 + w3 + t.length + 1,
            g1 ++ kw ++ [' '] ++ name ++ " = module.".data ++ t ++ ['.'])

/-- Matcher for `:\s*(T)(?=[,\)\s])` (replaced by `: module.\1`). -/
def mAnnot (t : List Char) (rp s : List Char) : Option (Nat × List Char) :=
  match strLit [':'] s with
  | none => none
  | some r1 =>
    let w := (r1.takeWhile isPySpace).length
    match strLit t (r1.drop w) with
    | none => none
    | some r2 =>
      match r2 with
      | [] => none
      | q :: _ =>
        if q == ',' || q == ')' || isPySpace q then
          some (1 + w + t.length, ": module.".data ++ t)
        else none

def dotDeinitParen : List Char := ".deinit()".data

/-- The fixed allow-list of the looser `deinit` rewrite in `fix_tests.py`. -/
def deinitNames : List (List Char) :=
  ["list", "items", "buffer", "result", "output", "members", "cursors", "events",
   "names", "tags", "issues", "reasons", "preview", "tools", "resources"].map
    String.data

/-- Matcher for `(\b(?:list|items|...))\s*\.deinit\(\)` (replaced by
`\1.deinit(alloc)`); the alternation is tried in source order. -/
def mDeinitAlloc (rp s : List Char) : Option (Nat × List Char) :=
  let boundaryOk :=
    match rp with
    | [] => true
    | p :: _ => !isWordChar p
  if !boundaryOk then none else
  deinitNames.foldl
    (fun acc nm =>
      match acc with
      | some r => some r
      | none =>
        match strLit nm s with
        | none => none
        | some r1 =>
          let w := (r1.takeWhile isPySpace).length
          match strLit dotDeinitParen (r1.drop w) with
          | none => none
          | some _ =>
            some (nm.length + w + dotDeinitParen.length, nm ++ ".deinit(alloc)".data))
    none

/-- The three per-type rewrites of `fix_tests.py`, in program order. -/
def qualifyType (s t : List Char) : List Char :=
  runSub (mAnnot t) (runSub (mDeclInit t) (runSub (mQualify t) s))

/-- The whole-text transform of `fix_tests.fix_test_file` for a mapped file. -/
def fixTestsText (types : List (List Char)) (s : List Char) : List Char :=
  runSub mDeinitAlloc (types.foldl qualifyType s)

/-- `TYPE_MAPPINGS` from `fix_tests.py`. -/
def typeMappings : List (String × List String) :=
  [("test_validation.zig", ["ValidationResult", "CommandValidator"]),
   ("test_mcp.zig", ["McpClient", "McpServer", "McpTool", "McpResource", "McpMessage"]),
   ("test_history.zig", ["HistoryManager", "HistoryEntry", "HistorySearchResult"]),
   ("test_shell.zig", ["Shell", "ShellContext", "ShellType"]),
   ("test_redactor.zig", ["Redactor", "RedactionPattern", "RedactionResult"]),
   ("test_suggestions.zig", ["SuggestionService", "Suggestion", "SuggestionType"]),
   ("test_prompt_suggestions.zig", ["PromptSuggestionService", "PromptSuggestion"]),
   ("test_completions.zig", ["CompletionsService", "Completion"]),
   ("test_active.zig", ["ActiveAI", "Recommendation", "TerminalState"]),
   ("test_ssh.zig", ["SshAssistant", "SshHost", "SshHistoryEntry"]),
   ("test_theme.zig", ["ThemeAssistant", "Theme", "ThemeSuggestion", "ThemeCategory"]),
   ("test_explanation.zig", ["ExplanationService", "Explanation"]),
   ("test_client.zig", ["Client", "ChatResponse", "Provider", "StreamCallback"]),
   ("test_workflow.zig", ["Workflow", "WorkflowStep", "WorkflowManager"]),
   ("test_workflows.zig", ["WorkflowRegistry", "WorkflowTemplate"]),
   ("test_analytics.zig", ["AnalyticsService", "AnalyticsEvent"]),
   ("test_blocks.zig", ["BlockManager", "Block", "BlockType"]),
   ("test_collaboration.zig", ["CollaborationService", "Session", "Participant"]),
   ("test_command_corrections.zig", ["CommandCorrectionsService", "Correction"]),
   ("test_command_history.zig", ["CommandHistoryService", "CommandEntry"]),
   ("test_corrections.zig", ["CorrectionService", "CorrectionSuggestion"]),
   ("test_custom_prompts.zig", ["CustomPromptManager", "CustomPrompt"]),
   ("test_documentation.zig", ["DocumentationGenerator", "Documentation"]),
   ("test_embeddings.zig", ["EmbeddingsService", "Embedding", "EmbeddingVector"]),
   ("test_error_recovery.zig", ["ErrorRecoveryService", "RecoveryStrategy"]),
   ("test_export_import.zig", ["ExportImportService", "ExportFormat"]),
   ("test_ide_editing.zig", ["IdeEditingService", "EditOperation"]),
   ("test_keyboard_shortcuts.zig", ["ShortcutManager", "Shortcut"]),
   ("test_knowledge_rules.zig", ["KnowledgeRulesManager", "Rule", "RuleContext"]),
   ("test_main.zig", ["Assistant", "Config"]),
   ("test_multi_turn.zig", ["MultiTurnService", "Conversation", "Turn"]),
   ("test_next_command.zig", ["NextCommandService", "CommandSuggestion"]),
   ("test_notebooks.zig", ["NotebookManager", "Notebook", "Cell"]),
   ("test_notifications.zig", ["NotificationService", "Notification", "NotificationCategory"]),
   ("test_performance.zig", ["PerformanceMonitor", "Metrics"]),
   ("test_plugins.zig", ["PluginManager", "Plugin"]),
   ("test_progress.zig", ["ProgressTracker", "ProgressUpdate"]),
   ("test_rich_history.zig", ["RichHistoryManager", "RichHistoryEntry"]),
   ("test_rollback.zig", ["RollbackManager", "RollbackPoint"]),
   ("test_secrets.zig", ["SecretRedactor", "DetectedSecret"]),
   ("test_security.zig", ["SecurityScanner", "SecurityIssue"]),
   ("test_session_sharing.zig", ["SessionSharingService", "SharedSession"]),
   ("test_sharing.zig", ["SharingService", "ShareLink"]),
   ("test_theme_suggestions.zig", ["ThemeSuggestionService", "AISuggestedTheme"]),
   ("test_voice.zig", ["VoiceService", "VoiceCommand", "TranscriptionResult"])]

def lookupTypes (fname : String) : Option (List (List Char)) :=
  (typeMappings.find? (fun p => p.1 == fname)).map (fun p => p.2.map String.data)

/-!
## `fix_arraylist_deinit.py` — comment/string heuristic and cleanup rewrites
-/

def slashSlash : List Char := "//".data

def bsQuote : List Char := ['\\', '"']

/-- The line-comment half of `is_inside_comment_or_string`: does `//` occur
between the last newline before position `i` and position `i`? -/
def lineHasComment (s : List Char) (i : Nat) : Bool :=
  containsSub slashSlash (((s.take i).reverse.takeWhile (fun c => c != '\n')).reverse)

/-- The string-literal half of `is_inside_comment_or_string`: is
`content[:i].count('"') - content[:i].count('\\"')` odd? -/
def quoteParityOdd (s : List Char) (i : Nat) : Bool :=
  (countChar '"' (s.take i) - countSub bsQuote (s.take i)) % 2 == 1

def isInsideCommentOrString (s : List Char) (i : Nat) : Bool :=
  lineHasComment s i || quoteParityOdd s i

def deferLit : List Char := "defer".data

def dotDeinitSemi : List Char := ".deinit();".data

/-- Regex `\b` immediately before a word character at position `i`. -/
def noWordBefore (s : List Char) (i : Nat) : Bool :=
  if i == 0 then true
  else !isWordChar (s.getD (i - 1) ' ')

/-- Matcher for `\bdefer\s+V\.deinit\(\)`, returning the match length. -/
def matchDeferAt (v s : List Char) (i : Nat) : Option Nat :=
  if !noWordBefore s i then none else
  match strLit deferLit (s.drop i) with
  | none => none
  | some r1 =>
    let w := (r1.takeWhile isPySpace).length
    if w == 0 then none else
    match strLit v (r1.drop w) with
    | none => none
    | some r2 =>
      match strLit dotDeinitParen r2 with
      | none => none
      | some _ => some (deferLit.length + w + v.length + dotDeinitParen.length)

/-- Matcher for `\bV\.deinit\(\);`, returning the match length. -/
def matchDeinitAt (v s : List Char) (i : Nat) : Option Nat :=
  if !noWordBefore s i then none else
  match strLit v (s.drop i) with
  | none => none
  | some r1 =>
    match strLit dotDeinitSemi r1 with
    | none => none
    | some _ => some (v.length + dotDeinitSemi.length)

/-- The `re.sub` of `fix_arraylist_deinit.fix_test_file` with its skipping
replacer: on a match at a position judged inside a comment or string the
original matched text is emitted unchanged (the replacer returns
`match.group(0)`), otherwise the replacement; the scan resumes after the
matched region either way.  The skip test is evaluated against the subject
string of the current `re.sub` call, exactly as in the source. -/
def subSkip (orig : List Char) (m : List Char → Nat → Option Nat) (repl : List Char) :
    Nat → List Char → Nat → List Char
  | _, [], _ => []
  | skip + 1, _ :: rest, i => subSkip orig m repl skip rest (i + 1)
  | 0, c :: rest, i =>
    match m orig i with
    | some n =>
      (if isInsideCommentOrString orig i then (c :: rest).take n else repl) ++
        subSkip orig m repl (n - 1) rest (i + 1)
    | none => c :: subSkip orig m repl 0 rest (i + 1)

def runSkipSub (m : List Char → Nat → Option Nat) (repl s : List Char) : List Char :=
  subSkip s m repl 0 s 0

def deferRepl (v alloc : List Char) : List Char :=
  "defer ".data ++ v ++ ".deinit(".data ++ alloc ++ [')']

def deinitRepl (v alloc : List Char) : List Char :=
  v ++ ".deinit(".data ++ alloc ++ [')', ';']

/-- Both cleanup rewrites for one ArrayList variable, in program order. -/
def fixVar (alloc s v : List Char) : List Char :=
  runSkipSub (matchDeinitAt v) (deinitRepl v alloc)
    (runSkipSub (matchDeferAt v) (deferRepl v alloc) s)

def arrayListLit : List Char := "std.ArrayListUnmanaged(".data

/-- Matcher for `\bvar\s+(\w+)\s*=\s*std\.ArrayListUnmanaged\([^)]*\)\{\}`,
returning the match length and the captured variable name. -/
def mVarDeclA (s : List Char) (i : Nat) : Option (Nat × List Char) :=
  if !noWordBefore s i then none else
  match strLit varLit (s.drop i) with
  | none => none
  | some r1 =>
    let w1 := (r1.takeWhile isPySpace).length
    if w1 == 0 then none else
    let r2 := r1.drop w1
    let name := r2.takeWhile isWordChar
    if name.length == 0 then none else
    let r3 := r2.drop name.length
    let w2 := (r3.takeWhile isPySpace).length
    match strLit ['='] (r3.drop w2) with
    | none => none
    | some r4 =>
      let w3 := (r4.takeWhile isPySpace).length
      match strLit arrayListLit (r4.drop w3) with
      | none => none
      | some r5 =>
        let inner := (r5.takeWhile (fun c => c != ')')).length
        match strLit "){}".data (r5.drop inner) with
        | none => none
        | some _ =>
          some (varLit.length + w1 + name.length + w2 + 1 + w3 +
            arrayListLit.length + inner + 3, name)

/-- Matcher for `\bvar\s+(\w+)\s*:\s*std\.ArrayListUnmanaged\([^)]*\)`,
returning the match length and the captured variable name. -/
def mVarDeclB (s : List Char) (i : Nat) : Option (Nat × List Char) :=
  if !noWordBefore s i then none else
  match strLit varLit (s.drop i) with
  | none => none
  | some r1 =>
    let w1 := (r1.takeWhile isPySpace).length
    if w1 == 0 then none else
    let r2 := r1.drop w1
    let name := r2.takeWhile isWordChar
    if name.length == 0 then none else
    let r3 := r2.drop name.length
    let w2 := (r3.takeWhile isPySpace).length
    match strLit [':'] (r3.drop w2) with
    | none => none
    | some r4 =>
      let w3 := (r4.takeWhile isPySpace).length
      match strLit arrayListLit (r4.drop w3) with
      | none => none
      | some r5 =>
        let inner := (r5.takeWhile (fun c => c != ')')).length
        match strLit [')'] (r5.drop inner) with
        | none => none
        | some _ =>
          some (varLit.length + w1 + name.length + w2 + 1 + w3 +
            arrayListLit.length + inner + 1, name)

/-- `re.finditer`: left-to-right non-overlapping matches, collecting the
capture of each. -/
def scanMatches (orig : List Char) (m : List Char → Nat → Option (Nat × List Char)) :
    Nat → List Char → Nat → List (List Char)
  | _, [], _ => []
  | skip + 1, _ :: rest, i => scanMatches orig m skip rest (i + 1)
  | 0, _ :: rest, i =>
    match m orig i with
    | some (n, a) => a :: scanMatches orig m (n - 1) rest (i + 1)
    | none => scanMatches orig m 0 rest (i + 1)

/-- The Python `set` of variable names, modelled as first-appearance
deduplication (set iteration order is unspecified in Python; the claims
settled here do not depend on the order). -/
def dedupKeepFirst (l : List (List Char)) : List (List Char) :=
  l.foldl (fun acc n => if n ∈ acc then acc else acc ++ [n]) []

def collectVars (s : List Char) : List (List Char) :=
  dedupKeepFirst (scanMatches s mVarDeclA 0 s 0 ++ scanMatches s mVarDeclB 0 s 0)

/-- The whole-text transform of `fix_arraylist_deinit.fix_test_file`. -/
def fixArraylistText (s : List Char) : List Char :=
  let alloc := (detectAllocatorName s).data
  (collectVars s).foldl (fixVar alloc) s

/-!
## File-state models of the three repair entry points
-/

/-- A file together with the backups taken of it during the run. -/
structure FState where
  content : List Char
  backups : List (List Char)
deriving DecidableEq, Repr

/-- `fix_arraylist_deinit.fix_test_file` (non-dry-run): when the transform
changes the text, first copy the current content to a backup, then write; when
it does not, neither backup nor write happens and the result is `False`. -/
def arraylistStep (st : FState) : FState × Bool :=
  let n := fixArraylistText st.content
  if n = st.content then (st, false)
  else ({ content := n, backups := st.backups ++ [st.content] }, true)

/-- `fix_tests.fix_test_file`: unmapped file names return `False` untouched;
mapped ones write the transformed text when it differs — with no backup. -/
def fixTestsFileStep (fname : String) (st : FState) : FState × Bool :=
  match lookupTypes fname with
  | none => (st, false)
  | some types =>
    let n := fixTestsText types st.content
    if n = st.content then (st, false)
    else ({ content := n, backups := st.backups }, true)

/-- `fix_tests_comprehensive.fix_test_file`: write when changed, no backup. -/
def comprehensiveStep (st : FState) : FState × Bool :=
  let n := fixComprehensiveText st.content
  if n = st.content then (st, false)
  else ({ content := n, backups := st.backups }, true)

/-- `fix_tests_comprehensive.check_truncated`: unequal brace counts. -/
def checkTruncated (content : List Char) : Bool :=
  countChar '{' content != countChar '}' content

/-- `check_truncated` as a file operation: it only reads, so the state passes
through unchanged. -/
def checkTruncatedOp (st : FState) : Bool × FState :=
  (checkTruncated st.content, st)

/-- One loop iteration of `fix_tests_comprehensive.main` on one file: repair
(writing when changed), then the truncation check. -/
def comprehensiveFileStep (st : FState) : FState × Bool × Bool :=
  let r1 := comprehensiveStep st
  let r2 := checkTruncatedOp r1.1
  (r2.2, r1.2, r2.1)

/-- The whole `fix_tests_comprehensive.main` loop over the (sorted) file list:
final states, the `fixed` counter, and the indices collected in the
`truncated` report list. -/
def comprehensiveRunAux : Nat → List FState → List FState × Nat × List Nat
  | _, [] => ([], 0, [])
  | i, st :: rest =>
    let r := comprehensiveFileStep st
    let tl := comprehensiveRunAux (i + 1) rest
    (r.1 :: tl.1, (if r.2.1 then 1 else 0) + tl.2.1,
      (if r.2.2 then [i] else []) ++ tl.2.2)

def comprehensiveRun (files : List FState) : List FState × Nat × List Nat :=
  comprehensiveRunAux 0 files

/-!
## Specification-level auxiliary definitions used by the theorem statements
-/

def tripleNl : List Char := ['\n', '\n', '\n']

/-- Length of the leading newline run of a string. -/
def nlRun (s : List Char) : Nat := (s.takeWhile (fun c => c == '\n')).length

/-- The specification's phrasing of the duplicate-import collapse: keep every
line, except that import lines after the (positionally) first import line are
removed. -/
def specKeepFirstImport (ls : List (List Char)) : List (List Char) :=
  match ls.findIdx? (fun l => stripP l == stdImportLine) with
  | none => ls
  | some j =>
    ls.take (j + 1) ++ (ls.drop (j + 1)).filter (fun l => !(stripP l == stdImportLine))

/-- A well-formed ArrayList variable name, as produced by the `(\w+)` capture
groups of the declaration patterns: nonempty and made of word characters. -/
def wfVar (v : List Char) : Prop :=
  v ≠ [] ∧ ∀ c ∈ v, isWordChar c = true

instance (v : List Char) : Decidable (wfVar v) := by
  unfold wfVar; infer_instance

/-!
## Scan-event infrastructure for the idempotence proofs

A `re.sub` scan is abstracted as the list of matches it performs (position,
length, replacement); the output is the source with each matched region
replaced.  `EvChain` records the left-to-right non-overlapping discipline of
the scan together with the fact that the matcher declines at every position
between matches.
-/

/-- The matcher of a context scan applied at absolute position `j` of `u`. -/
def mAt (m : List Char → List Char → Option (Nat × List Char)) (u : List Char)
    (j : Nat) : Option (Nat × List Char) :=
  m ((u.take j).reverse) (u.drop j)

/-- Rebuild a scan output from the source and the match events. -/
def renderEv (u : List Char) : Nat → List (Nat × Nat × List Char) → List Char
  | j, [] => u.drop j
  | j, (p, n, r) :: evs => (u.drop j).take (p - j) ++ (r ++ renderEv u (p + n) evs)

/-- The record of a left-to-right non-overlapping scan from position `j`:
every position up to the next match declines, each match is faithful, and the
scan resumes after the matched region. -/
inductive EvChain (m : List Char → List Char → Option (Nat × List Char))
    (u : List Char) : Nat → List (Nat × Nat × List Char) → Prop
  | nil : ∀ j, (∀ q, j ≤ q → mAt m u q = none) → EvChain m u j []
  | cons : ∀ j p n r evs, j ≤ p → (∀ q, j ≤ q → q < p → mAt m u q = none) →
      mAt m u p = some (n, r) → 1 ≤ n → p < u.length → EvChain m u (p + n) evs →
      EvChain m u j ((p, n, r) :: evs)

/-- A matcher declines at every position of `u` (so the scan copies `u`
verbatim). -/
def NFat (m : List Char → List Char → Option (Nat × List Char))
    (u : List Char) : Prop :=
  ∀ j, mAt m u j = none

/-- The analogous record for the positional scans of
`fix_arraylist_deinit.py` (`subSkip`): a replaced match is one the comment or
string heuristic does not protect; between the recorded matches every
position either declines or is protected. -/
inductive SkChain (orig : List Char) (m : List Char → Nat → Option Nat) :
    Nat → List (Nat × Nat) → Prop
  | nil : ∀ j, (∀ q n, j ≤ q → m orig q = some n →
      isInsideCommentOrString orig q = true) → SkChain orig m j []
  | cons : ∀ j p n evs, j ≤ p → (∀ q n2, j ≤ q → q < p → m orig q = some n2 →
      isInsideCommentOrString orig q = true) →
      m orig p = some n → 1 ≤ n → p < orig.length →
      isInsideCommentOrString orig p = false →
      SkChain orig m (p + n) evs → SkChain orig m j ((p, n) :: evs)

/-- Rebuild a `subSkip` output from the source, the replacement and the
replaced-match events (protected matches are emitted verbatim, so they stay
inside the source segments). -/
def renderSk (u repl : List Char) : Nat → List (Nat × Nat) → List Char
  | j, [] => u.drop j
  | j, (p, n) :: evs => (u.drop j).take (p - j) ++ (repl ++ renderSk u repl (p + n) evs)

/-- Every match of `m` in `u` is judged inside a comment or string (so the
skipping scan leaves `u` unchanged). -/
def AllProt (u : List Char) (m : List Char → Nat → Option Nat) : Prop :=
  ∀ j n, m u j = some n → isInsideCommentOrString u j = true

/-- Head-character class `[\\s(,=]` of the `mQualify` lookbehind. -/
def isClassQ (p : Char) : Bool :=
  isPySpace p || p == '(' || p == ',' || p == '='

/-- Lookahead class `[\\s\\.\\(,\\)]` of `mQualify`. -/
def isLookQ (q : Char) : Bool :=
  isPySpace q || q == '.' || q == '(' || q == ',' || q == ')'

/-- Lookahead class `[,\\)\\s]` of `mAnnot`. -/
def isLookA (q : Char) : Bool :=
  q == ',' || q == ')' || isPySpace q

/-- The last character of `A`, or the ambient left context `lc` when `A` is
empty: the character immediately to the left of a position in a string that
extends `A` to the right. -/
def lastOpt (lc : Option Char) (A : List Char) : Option Char :=
  match A.getLast? with
  | some c => some c
  | none => lc

/-- The character of `u` just before position `j`, if any. -/
def prevCharAt (u : List Char) (j : Nat) : Option Char :=
  (u.take j).getLast?

/-- A pattern occurrence: `w` splits as `A ++ C ++ B` with `C` a core from
`isCore` and the character preceding `C` (the last of `A`, or the ambient
context `lc`) satisfying `pCond`. -/
def OccL (isCore : List Char → Prop) (pCond : Option Char → Prop)
    (lc : Option Char) (w : List Char) : Prop :=
  ∃ A C B, w = A ++ (C ++ B) ∧ isCore C ∧ pCond (lastOpt lc A)

/-- Core of a `mQualify t` firing opportunity: a `[\\s(,=]` character, the
type name and a `[\\s\\.\\(,\\)]` lookahead character. -/
def coreQ (t : List Char) (C : List Char) : Prop :=
  ∃ p q, isClassQ p = true ∧ isLookQ q = true ∧ C = p :: (t ++ [q])

/-- Core of a zero-whitespace `mAnnot t` firing opportunity: `:`, the type
name and a `[,\\)\\s]` lookahead character. -/
def coreC (t : List Char) (C : List Char) : Prop :=
  ∃ q, isLookA q = true ∧ C = ':' :: (t ++ [q])

/-- Core of a `mDeinitAlloc` firing opportunity: an allow-listed name, a
whitespace run and `.deinit()`. -/
def coreDe (C : List Char) : Prop :=
  ∃ nm W, nm ∈ deinitNames ∧ (∀ c ∈ W, isPySpace c = true) ∧
    C = nm ++ (W ++ dotDeinitParen)

/-- Trivial left-context condition. -/
def pCondTriv (_ : Option Char) : Prop := True

/-- `\\b` as a left-context condition: no character, or a non-word
character. -/
def pCondDe (op : Option Char) : Prop :=
  ∀ c, op = some c → isWordChar c = false

/-- No `mQualify t` firing opportunity anywhere in `w`. -/
def NoQ (t w : List Char) : Prop := ¬ OccL (coreQ t) pCondTriv none w

/-- No zero-whitespace `mAnnot t` firing opportunity anywhere in `w`. -/
def NoC (t w : List Char) : Prop := ¬ OccL (coreC t) pCondTriv none w

/-- No `mDeinitAlloc` firing opportunity anywhere in `w`. -/
def NoDe (w : List Char) : Prop := ¬ OccL coreDe pCondDe none w

/-- The side conditions on a type name under which the `fix_tests.py` text
transform is proven idempotent; every name in `TYPE_MAPPINGS` satisfies
them. -/
def wfT (t : List Char) : Prop :=
  t ≠ [] ∧ (∀ c ∈ t, isWordChar c = true) ∧
    "module".data.isSuffixOf t = false ∧ t ≠ "alloc".data ∧
    ∀ nm ∈ deinitNames, nm.isSuffixOf t = false

instance (t : List Char) : Decidable (wfT t) := by
  unfold wfT
  infer_instance

/-!
# Theorems

## General lemmas about the scanning combinators and string utilities
-/

theorem strLit_eq_some {lit s r : List Char} :
    strLit lit s = some r ↔ s = lit ++ r := by
  unfold strLit
  constructor
  · intro h
    split at h
    · next hp =>
      rcases (List.isPrefixOf_iff_prefix.mp hp) with ⟨t, ht⟩
      cases h
      subst ht
      rw [List.drop_left]
    · exact absurd h (by simp)
  · intro h
    subst h
    rw [if_pos (List.isPrefixOf_iff_prefix.mpr ⟨r, rfl⟩), List.drop_left]

theorem isPrefixOf_head {p x : List Char} {c d : Char}
    (h : (c :: p).isPrefixOf (d :: x) = true) : c = d ∧ p.isPrefixOf x = true := by
  simp only [List.isPrefixOf, Bool.and_eq_true, beq_iff_eq] at h
  exact h

theorem takeWhile_decomp (p : Char → Bool) (l : List Char) :
    l = l.takeWhile p ++ l.dropWhile p := (List.takeWhile_append_dropWhile p l).symm

theorem containsSub_cons {q : List Char} {c : Char} {rest : List Char} :
    containsSub q (c :: rest) = (q.isPrefixOf (c :: rest) || containsSub q rest) := rfl

theorem containsSub_of_suffix_pre {q s t : List Char}
    (hs : t <:+ s) (hp : q.isPrefixOf t = true) : containsSub q s = true := by
  induction s with
  | nil =>
    rcases hs with ⟨u, hu⟩
    have ht : t = [] := by
      cases t with
      | nil => rfl
      | cons a b => simp at hu
    subst ht
    cases q with
    | nil => rfl
    | cons a b => simp [List.isPrefixOf] at hp
  | cons c rest ih =>
    rcases hs with ⟨u, hu⟩
    cases u with
    | nil =>
      simp at hu
      subst hu
      simp [containsSub_cons, hp]
    | cons a b =>
      have : t <:+ rest := by
        refine ⟨b, ?_⟩
        have := congrArg List.tail hu
        simpa using this
      simp [containsSub_cons, ih this]

theorem containsSub_false_no_prefix {q s : List Char} (h : containsSub q s = false) :
    ∀ t, t <:+ s → q.isPrefixOf t = false := by
  intro t hs
  cases hp : q.isPrefixOf t with
  | false => rfl
  | true => rw [containsSub_of_suffix_pre hs hp] at h; cases h

/-- Skipping `k` characters is the same as restarting the scan `k` positions
later (`subCtx` bridging lemma). -/
theorem subCtx_skip_eq (m : List Char → List Char → Option (Nat × List Char)) :
    ∀ (k : Nat) (rp s : List Char),
      subCtx m k rp s = subCtx m 0 ((s.take k).reverse ++ rp) (s.drop k) := by
  intro k
  induction k with
  | zero => intro rp s; simp
  | succ k ih =>
    intro rp s
    cases s with
    | nil => simp [subCtx]
    | cons c rest =>
      rw [subCtx, ih (c :: rp) rest]
      simp

/-- Skipping `k` characters in `subSkip` restarts the scan `k` positions
later. -/
theorem subSkip_skip_eq (orig : List Char) (m : List Char → Nat → Option Nat)
    (repl : List Char) :
    ∀ (k : Nat) (s : List Char) (i : Nat),
      subSkip orig m repl k s i = subSkip orig m repl 0 (s.drop k) (i + k) := by
  intro k
  induction k with
  | zero => intro s i; simp
  | succ k ih =>
    intro s i
    cases s with
    | nil => simp [subSkip]
    | cons c rest =>
      rw [subSkip, ih rest (i + 1)]
      have h1 : i + 1 + k = i + (k + 1) := by omega
      rw [h1]
      simp

/-- A substitution whose matcher never fires anywhere in the subject copies it
unchanged. -/
theorem subCtx_id_of_no_match (m : List Char → List Char → Option (Nat × List Char)) :
    ∀ (s rp : List Char), (∀ rp1 t, t <:+ s → m rp1 t = none) →
      subCtx m 0 rp s = s := by
  intro s
  induction s with
  | nil => intro rp _; rfl
  | cons c rest ih =>
    intro rp h
    rw [subCtx, h rp (c :: rest) (List.suffix_refl _)]
    rw [ih (c :: rp) (fun rp1 t ht => h rp1 t (ht.trans (List.suffix_cons c rest)))]

/-!
## C9 — truncation validation is non-mutating and does not block persistence
-/

theorem comprehensiveStep_eq (st : FState) :
    comprehensiveStep st =
      (⟨fixComprehensiveText st.content, st.backups⟩,
        decide (fixComprehensiveText st.content ≠ st.content)) := by
  unfold comprehensiveStep
  by_cases h : fixComprehensiveText st.content = st.content
  · simp [h]
  · simp [h]

theorem comprehensiveFileStep_eq (st : FState) :
    comprehensiveFileStep st =
      (⟨fixComprehensiveText st.content, st.backups⟩,
        decide (fixComprehensiveText st.content ≠ st.content),
        checkTruncated (fixComprehensiveText st.content)) := by
  unfold comprehensiveFileStep checkTruncatedOp
  rw [comprehensiveStep_eq]

theorem comprehensiveRunAux_spec :
    ∀ (files : List FState) (i : Nat),
      comprehensiveRunAux i files =
        (files.map (fun f => ⟨fixComprehensiveText f.content, f.backups⟩),
         files.countP (fun f => decide (fixComprehensiveText f.content ≠ f.content)),
         ((files.enumFrom i).filter
           (fun p => checkTruncated (fixComprehensiveText p.2.content))).map Prod.fst) := by
  intro files
  induction files with
  | nil => intro i; rfl
  | cons st rest ih =>
    intro i
    rw [comprehensiveRunAux, comprehensiveFileStep_eq, ih (i + 1)]
    refine Prod.ext (by simp) (Prod.ext ?_ ?_)
    · simp [List.countP_cons]
      omega
    · show _ = ((List.enumFrom i (st :: rest)).filter _).map Prod.fst
      rw [List.enumFrom_cons]
      cases h : checkTruncated (fixComprehensiveText st.content) with
      | true => simp [h]
      | false => simp [h]

/-- C9: the truncation-validation pass is non-mutating and its flag does not
block persistence.  `check_truncated` is a pure read that compares the counts
of opening and closing braces, reporting truncation exactly when they differ;
the repaired content is written independently of the flag (the file's final
content is always the transform of its input), and in the `main` loop flagged
files are collected in the separate `truncated` report list while still
receiving their write. -/
theorem c9_truncation_validation (st : FState) (files : List FState) :
    (checkTruncatedOp st).2 = st ∧
    ((checkTruncatedOp st).1 = true ↔
      countChar '{' st.content ≠ countChar '}' st.content) ∧
    (comprehensiveFileStep st).1.content = fixComprehensiveText st.content ∧
    ((comprehensiveFileStep st).2.2 = true ↔
      countChar '{' ((comprehensiveFileStep st).1.content) ≠
        countChar '}' ((comprehensiveFileStep st).1.content)) ∧
    (comprehensiveRun files).1 =
      files.map (fun f => ⟨fixComprehensiveText f.content, f.backups⟩) ∧
    (comprehensiveRun files).2.2 =
      ((files.enum).filter
        (fun p => checkTruncated (fixComprehensiveText p.2.content))).map Prod.fst := by
  refine ⟨rfl, ?_, ?_, ?_, ?_, ?_⟩
  · show (checkTruncated st.content = true) ↔ _
    unfold checkTruncated
    exact bne_iff_ne
  · rw [comprehensiveFileStep_eq]
  · rw [comprehensiveFileStep_eq]
    show (checkTruncated _ = true) ↔ _
    unfold checkTruncated
    exact bne_iff_ne
  · rw [show comprehensiveRun files = comprehensiveRunAux 0 files from rfl,
      comprehensiveRunAux_spec]
  · rw [show comprehensiveRun files = comprehensiveRunAux 0 files from rfl,
      comprehensiveRunAux_spec]
    rfl

/-!
## C10 — no write, no backup, `not fixed` result when the transform is the
identity on the current content
-/

/-- C10: in each of the three repair scripts, when the repair transform
produces text identical to the file's current content, `fix_test_file`
performs no write, creates no backup, and returns a not-fixed result, leaving
the file state untouched.  (For `fix_tests.py` the transform applies to the
types mapped for the file's name; unmapped names always return not-fixed.) -/
theorem c10_unchanged_files_untouched (st : FState) (fname : String) :
    (fixArraylistText st.content = st.content → arraylistStep st = (st, false)) ∧
    ((∀ types, lookupTypes fname = some types →
        fixTestsText types st.content = st.content) →
      fixTestsFileStep fname st = (st, false)) ∧
    (fixComprehensiveText st.content = st.content → comprehensiveStep st = (st, false)) := by
  refine ⟨?_, ?_, ?_⟩
  · intro h
    unfold arraylistStep
    simp [h]
  · intro h
    unfold fixTestsFileStep
    cases hl : lookupTypes fname with
    | none => rfl
    | some types => simp [h types hl]
  · intro h
    unfold comprehensiveStep
    simp [h]

theorem c10_witness :
    arraylistStep ⟨[], []⟩ = (⟨[], []⟩, false) ∧
    fixTestsFileStep "test_shell.zig" ⟨[], []⟩ = (⟨[], []⟩, false) ∧
    comprehensiveStep ⟨[], []⟩ = (⟨[], []⟩, false) := by
  have h := c10_unchanged_files_untouched ⟨[], []⟩ "test_shell.zig"
  refine ⟨h.1 (by decide), h.2.1 ?_, h.2.2 (by decide)⟩
  intro types ht
  have hx : lookupTypes "test_shell.zig" =
      some ["Shell".data, "ShellContext".data, "ShellType".data] := by decide
  rw [hx] at ht
  injection ht with h2
  subst h2
  decide

/-!
## C3 — copy-before-write: only `fix_arraylist_deinit.py` takes backups
-/

/-- C3 (amended): `fix_arraylist_deinit.fix_test_file` does satisfy
copy-before-write — whenever it reports a fix, a backup byte-identical to the
pre-write content was appended and the new content is the transform of the old
— but `fix_tests.py` and `fix_tests_comprehensive.py` never create any backup
for the files they mutate. -/
theorem c3_backup_invariant (st : FState) (fname : String) :
    ((arraylistStep st).2 = true →
      (arraylistStep st).1.backups = st.backups ++ [st.content] ∧
      (arraylistStep st).1.content = fixArraylistText st.content) ∧
    ((arraylistStep st).2 = false → (arraylistStep st).1 = st) ∧
    (fixTestsFileStep fname st).1.backups = st.backups ∧
    (comprehensiveStep st).1.backups = st.backups := by
  refine ⟨?_, ?_, ?_, ?_⟩
  · intro h
    unfold arraylistStep at h ⊢
    by_cases hc : fixArraylistText st.content = st.content
    · simp [hc] at h
    · simp [hc]
  · intro h
    unfold arraylistStep at h ⊢
    by_cases hc : fixArraylistText st.content = st.content
    · simp [hc]
    · simp [hc] at h
  · unfold fixTestsFileStep
    cases hl : lookupTypes fname with
    | none => rfl
    | some types =>
      by_cases hc : fixTestsText types st.content = st.content
      · simp [hc]
      · simp [hc]
  · unfold comprehensiveStep
    by_cases hc : fixComprehensiveText st.content = st.content
    · simp [hc]
    · simp [hc]

/-- C3 counterexample: as stated, the claim is false — `fix_tests.py` mutates
`test_shell.zig` content (rewriting `list.deinit()`) and creates no backup at
all. -/
theorem c3_counterexample :
    (fixTestsFileStep "test_shell.zig" ⟨"list.deinit()\n".data, []⟩).1.content ≠
      "list.deinit()\n".data ∧
    (fixTestsFileStep "test_shell.zig" ⟨"list.deinit()\n".data, []⟩).2 = true ∧
    (fixTestsFileStep "test_shell.zig" ⟨"list.deinit()\n".data, []⟩).1.backups = [] := by
  decide

theorem c3_witness :
    (arraylistStep
      ⟨"var l = std.ArrayListUnmanaged(u8){}\ndefer l.deinit()\n".data, []⟩).1.backups =
      ["var l = std.ArrayListUnmanaged(u8){}\ndefer l.deinit()\n".data] ∧
    (arraylistStep
      ⟨"var l = std.ArrayListUnmanaged(u8){}\ndefer l.deinit()\n".data, []⟩).1.content =
      fixArraylistText "var l = std.ArrayListUnmanaged(u8){}\ndefer l.deinit()\n".data := by
  have h := (c3_backup_invariant
    ⟨"var l = std.ArrayListUnmanaged(u8){}\ndefer l.deinit()\n".data, []⟩ "x").1
    (by decide)
  exact ⟨by rw [h.1]; rfl, h.2⟩

/-!
## C4 — credential exhaustion bound
-/

theorem runAttempts_length_le (backend : Nat → BackendResult) (n : Nat) :
    ∀ (fuel idx : Nat), (runAttempts backend n idx fuel).1.length ≤ fuel := by
  intro fuel
  induction fuel with
  | zero => intro idx; simp [runAttempts]
  | succ fuel ih =>
    intro idx
    rw [runAttempts]
    cases backend idx with
    | success t => simp
    | rateLimit => simpa using Nat.succ_le_succ (ih ((idx + 1) % n))
    | otherError => simp

theorem runAttempts_all_rate_limited (backend : Nat → BackendResult) (n : Nat)
    (hb : ∀ j, backend j = .rateLimit) (hn : 0 < n) :
    ∀ (fuel idx : Nat), idx < n →
      (runAttempts backend n idx fuel).1 =
        (List.range fuel).map (fun k => (idx + k) % n) ∧
      (runAttempts backend n idx fuel).2.2 = .exhausted := by
  intro fuel
  induction fuel with
  | zero => intro idx _; simp [runAttempts]
  | succ fuel ih =>
    intro idx hidx
    rw [runAttempts, hb idx]
    have hlt : (idx + 1) % n < n := Nat.mod_lt _ hn
    obtain ⟨h1, h2⟩ := ih ((idx + 1) % n) hlt
    constructor
    · show idx :: (runAttempts backend n ((idx + 1) % n) fuel).1 = _
      rw [h1, List.range_succ_eq_map, List.map_cons, List.map_map]
      congr 1
      · rw [Nat.add_zero, Nat.mod_eq_of_lt hidx]
      · apply List.map_congr_left
        intro k _
        show ((idx + 1) % n + k) % n = (idx + Nat.succ k) % n
        rw [Nat.mod_add_mod]
        congr 1
        omega
    · exact h2

/-- C4 (amended): each backend call site retries at most pool-size times.  If
every credential signals rate-limiting, one call site makes exactly `n`
submissions — one per distinct credential, covering the whole pool — and
reports exhaustion; a non-rate-limit backend error aborts the call site after
that single submission with no retry.  A module of `generate_ai_tests.main`
however comprises two call sites (analysis, then generation, which is still
attempted after an exhausted analysis), so a module makes at most `2 * n`
submissions, not `n`. -/
theorem c4_retry_bounds (backend backendG : Nat → BackendResult) (n idx : Nat)
    (hn : 0 < n) (hidx : idx < n) :
    (attemptLoop backend n idx).1.length ≤ n ∧
    ((∀ j, backend j = .rateLimit) →
      (attemptLoop backend n idx).1 =
        (List.range n).map (fun k => (idx + k) % n) ∧
      (attemptLoop backend n idx).2.2 = .exhausted ∧
      (attemptLoop backend n idx).1.length = n ∧
      (attemptLoop backend n idx).1.Nodup ∧
      (∀ j, j < n → j ∈ (attemptLoop backend n idx).1)) ∧
    (backend idx = .otherError →
      attemptLoop backend n idx = ([idx], idx, .abortedError)) ∧
    (genAiModuleSubmissions backend backendG n idx).length ≤ 2 * n := by
  simp only [attemptLoop, genAiModuleSubmissions]
  refine ⟨runAttempts_length_le backend n n idx, ?_, ?_, ?_⟩
  · intro hb
    obtain ⟨h1, h2⟩ := runAttempts_all_rate_limited backend n hb hn n idx hidx
    refine ⟨h1, h2, ?_, ?_, ?_⟩
    · rw [h1]; simp
    · rw [h1]
      refine List.Nodup.map_on ?_ (List.nodup_range n)
      intro a ha b hb2 hab
      rw [List.mem_range] at ha hb2
      have hmod : a % n = b % n :=
        Nat.ModEq.add_left_cancel' idx hab
      rwa [Nat.mod_eq_of_lt ha, Nat.mod_eq_of_lt hb2] at hmod
    · intro j hj
      rw [h1, List.mem_map]
      refine ⟨(j + n - idx) % n, ?_, ?_⟩
      · rw [List.mem_range]; exact Nat.mod_lt _ hn
      · rw [Nat.add_comm idx _, Nat.mod_add_mod, Nat.add_comm _ idx]
        have : idx + (j + n - idx) = j + n := by omega
        rw [this, Nat.add_mod_right, Nat.mod_eq_of_lt hj]
  · intro h
    cases n with
    | zero => omega
    | succ m =>
      show runAttempts backend (m + 1) idx (m + 1) = _
      rw [runAttempts, h]
  · rw [List.length_append]
    have ha := runAttempts_length_le backend n n idx
    have hg := runAttempts_length_le backendG n n (runAttempts backend n idx n).2.1
    omega

/-- C4 counterexample: with a pool of 2 fully rate-limited credentials, a
single module of `generate_ai_tests` makes 4 backend submissions — more than
the pool size — because the analysis loop's exhaustion does not abort the
module. -/
theorem c4_counterexample :
    genAiModuleSubmissions (fun _ => .rateLimit) (fun _ => .rateLimit) 2 0 = [0, 1, 0, 1] ∧
    ¬((genAiModuleSubmissions (fun _ => .rateLimit) (fun _ => .rateLimit) 2 0).length ≤ 2) := by
  decide

theorem c4_witness :
    (attemptLoop (fun _ => BackendResult.rateLimit) 2 0).1 = [0, 1] ∧
    (attemptLoop (fun _ => BackendResult.rateLimit) 2 0).2.2 = .exhausted ∧
    (attemptLoop (fun j => if j = 0 then .otherError else .rateLimit) 2 0) =
      ([0], 0, .abortedError) := by
  have h1 := (c4_retry_bounds (fun _ => BackendResult.rateLimit)
    (fun _ => BackendResult.rateLimit) 2 0 (by decide) (by decide)).2.1
    (fun j => rfl)
  have h2 := (c4_retry_bounds (fun j => if j = 0 then BackendResult.otherError
    else BackendResult.rateLimit) (fun _ => BackendResult.rateLimit) 2 0
    (by decide) (by decide)).2.2.1 (by decide)
  exact ⟨by rw [h1.1]; decide, h1.2.1, h2⟩

/-!
## C5 — code extraction: lemmas about `split` and `strip`
-/

theorem dropWhile_head_false {p : Char → Bool} {l t : List Char} {c : Char}
    (h : l.dropWhile p = c :: t) : p c = false := by
  have := List.head?_dropWhile_not p l
  rw [h] at this
  exact this

/-- C6 (amended): `generate_coverage_tests.main` and `add_inline_tests.main`
reject extraction results of length at most 100 — nothing is appended and the
module is counted skipped — but `generate_ai_tests.main` has no length
threshold: it writes any nonempty extraction result. -/
theorem c6_length_threshold (r tf : List Char) (stats : Nat × Nat) :
    ((extractZigCode r).length ≤ 100 → coverageDecision r = none) ∧
    ((extractTests r).length ≤ 100 → addInlineDecision r = none) ∧
    ((extractZigCode r).length ≤ 100 →
      coverageStep r tf stats = (tf, (stats.1, stats.2 + 1))) ∧
    (∀ t, coverageDecision r = some t →
      t = extractZigCode r ∧ 100 < t.length ∧ t ≠ []) ∧
    (∀ t, addInlineDecision r = some t →
      t = extractTests r ∧ 100 < t.length ∧ t ≠ []) ∧
    (∀ t, genAiDecision r = some t → t = extractZigTests r ∧ t ≠ []) := by
  have hcov : (extractZigCode r).length ≤ 100 → coverageDecision r = none := by
    intro h
    unfold coverageDecision
    by_cases he : r.isEmpty
    · simp [he]
    · have hc : (!(extractZigCode r).isEmpty &&
          decide (100 < (extractZigCode r).length)) = false := by
        rw [decide_eq_false (by omega)]
        simp
      simp [he, hc]
  have hinl : (extractTests r).length ≤ 100 → addInlineDecision r = none := by
    intro h
    unfold addInlineDecision
    by_cases he : r.isEmpty
    · simp [he]
    · have hc : (!(extractTests r).isEmpty &&
          decide (100 < (extractTests r).length)) = false := by
        rw [decide_eq_false (by omega)]
        simp
      simp [he, hc]
  refine ⟨hcov, hinl, ?_, ?_, ?_, ?_⟩
  · intro h
    unfold coverageStep
    rw [hcov h]
  · intro t ht
    unfold coverageDecision at ht
    by_cases he : r.isEmpty
    · simp [he] at ht
    · simp only [he, if_false, Bool.false_eq_true] at ht
      by_cases hcnd : (!(extractZigCode r).isEmpty &&
          decide (100 < (extractZigCode r).length)) = true
      · rw [if_pos hcnd] at ht
        injection ht with ht2
        subst ht2
        rw [Bool.and_eq_true, Bool.not_eq_eq_eq_not, Bool.not_true,
          decide_eq_true_eq] at hcnd
        refine ⟨rfl, hcnd.2, ?_⟩
        intro hnil
        rw [hnil] at hcnd
        simp at hcnd
      · rw [if_neg hcnd] at ht
        cases ht
  · intro t ht
    unfold addInlineDecision at ht
    by_cases he : r.isEmpty
    · simp [he] at ht
    · simp only [he, if_false, Bool.false_eq_true] at ht
      by_cases hcnd : (!(extractTests r).isEmpty &&
          decide (100 < (extractTests r).length)) = true
      · rw [if_pos hcnd] at ht
        injection ht with ht2
        subst ht2
        rw [Bool.and_eq_true, Bool.not_eq_eq_eq_not, Bool.not_true,
          decide_eq_true_eq] at hcnd
        refine ⟨rfl, hcnd.2, ?_⟩
        intro hnil
        rw [hnil] at hcnd
        simp at hcnd
      · rw [if_neg hcnd] at ht
        cases ht
  · intro t ht
    unfold genAiDecision at ht
    by_cases he : r.isEmpty
    · simp [he] at ht
    · simp only [he, if_false, Bool.false_eq_true] at ht
      by_cases hcnd : (!(extractZigTests r).isEmpty) = true
      · rw [if_pos hcnd] at ht
        injection ht with ht2
        refine ⟨ht2.symm, ?_⟩
        subst ht2
        intro hnil
        rw [hnil] at hcnd
        simp at hcnd
      · rw [if_neg hcnd] at ht
        cases ht

/-- C6 counterexample: `generate_ai_tests.main` writes a 3-character
extraction result — far below the documented 100-character minimum — because
it only tests non-emptiness. -/
theorem c6_counterexample :
    genAiDecision "```zig\nfoo\n```".data = some "foo".data ∧
    ("foo".data).length ≤ 100 := by decide

theorem c6_witness :
    coverageDecision [] = none ∧ addInlineDecision [] = none ∧
    coverageStep [] [] (0, 0) = ([], (0, 1)) := by
  have h := c6_length_threshold [] [] (0, 0)
  exact ⟨h.1 (by decide), h.2.1 (by decide), h.2.2.1 (by decide)⟩

/-!
## C7 — allocator-name detection order
-/

/-- C7 (amended): `detect_allocator_name` decides by a fixed pattern-priority
order — `const alloc`, `const allocator`, `const gpa`, `const ally`,
`var alloc`, `var allocator` — each searched anywhere in the file, not by the
positionally first matching declaration; when no pattern matches it returns
`std.testing.allocator` if that reference occurs in the text and `alloc`
otherwise. -/
theorem c7_priority_order (s : List Char) :
    (searchSuffix (matchAllocDecl constLit allocLit true) s = true →
      detectAllocatorName s = "alloc") ∧
    (searchSuffix (matchAllocDecl constLit allocLit true) s = false →
      searchSuffix (matchAllocDecl constLit allocatorLit true) s = true →
      detectAllocatorName s = "allocator") ∧
    (searchSuffix (matchAllocDecl constLit allocLit true) s = false →
      searchSuffix (matchAllocDecl constLit allocatorLit true) s = false →
      searchSuffix (matchAllocDecl constLit gpaLit false) s = true →
      detectAllocatorName s = "gpa") ∧
    (searchSuffix (matchAllocDecl constLit allocLit true) s = false →
      searchSuffix (matchAllocDecl constLit allocatorLit true) s = false →
      searchSuffix (matchAllocDecl constLit gpaLit false) s = false →
      searchSuffix (matchAllocDecl constLit allyLit false) s = true →
      detectAllocatorName s = "ally") ∧
    (searchSuffix (matchAllocDecl constLit allocLit true) s = false →
      searchSuffix (matchAllocDecl constLit allocatorLit true) s = false →
      searchSuffix (matchAllocDecl constLit gpaLit false) s = false →
      searchSuffix (matchAllocDecl constLit allyLit false) s = false →
      searchSuffix (matchAllocDecl varLit allocLit true) s = true →
      detectAllocatorName s = "alloc") ∧
    (searchSuffix (matchAllocDecl constLit allocLit true) s = false →
      searchSuffix (matchAllocDecl constLit allocatorLit true) s = false →
      searchSuffix (matchAllocDecl constLit gpaLit false) s = false →
      searchSuffix (matchAllocDecl constLit allyLit false) s = false →
      searchSuffix (matchAllocDecl varLit allocLit true) s = false →
      searchSuffix (matchAllocDecl varLit allocatorLit true) s = true →
      detectAllocatorName s = "allocator") ∧
    ((∀ pat ∈ allocPatterns, searchSuffix pat.1 s = false) →
      containsSub stdTestingAllocLit s = true →
      detectAllocatorName s = "std.testing.allocator") ∧
    ((∀ pat ∈ allocPatterns, searchSuffix pat.1 s = false) →
      containsSub stdTestingAllocLit s = false →
      detectAllocatorName s = "alloc") := by
  refine ⟨?_, ?_, ?_, ?_, ?_, ?_, ?_, ?_⟩
  · intro h1
    simp [detectAllocatorName, allocPatterns, List.find?, h1]
  · intro h1 h2
    simp [detectAllocatorName, allocPatterns, List.find?, h1, h2]
  · intro h1 h2 h3
    simp [detectAllocatorName, allocPatterns, List.find?, h1, h2, h3]
  · intro h1 h2 h3 h4
    simp [detectAllocatorName, allocPatterns, List.find?, h1, h2, h3, h4]
  · intro h1 h2 h3 h4 h5
    simp [detectAllocatorName, allocPatterns, List.find?, h1, h2, h3, h4, h5]
  · intro h1 h2 h3 h4 h5 h6
    simp [detectAllocatorName, allocPatterns, List.find?, h1, h2, h3, h4, h5, h6]
  · intro hall hc
    have h1 := hall (matchAllocDecl constLit allocLit true, "alloc")
      (by simp [allocPatterns])
    have h2 := hall (matchAllocDecl constLit allocatorLit true, "allocator")
      (by simp [allocPatterns])
    have h3 := hall (matchAllocDecl constLit gpaLit false, "gpa")
      (by simp [allocPatterns])
    have h4 := hall (matchAllocDecl constLit allyLit false, "ally")
      (by simp [allocPatterns])
    have h5 := hall (matchAllocDecl varLit allocLit true, "alloc")
      (by simp [allocPatterns])
    have h6 := hall (matchAllocDecl varLit allocatorLit true, "allocator")
      (by simp [allocPatterns])
    simp [detectAllocatorName, allocPatterns, List.find?, h1, h2, h3, h4, h5, h6, hc]
  · intro hall hc
    have h1 := hall (matchAllocDecl constLit allocLit true, "alloc")
      (by simp [allocPatterns])
    have h2 := hall (matchAllocDecl constLit allocatorLit true, "allocator")
      (by simp [allocPatterns])
    have h3 := hall (matchAllocDecl constLit gpaLit false, "gpa")
      (by simp [allocPatterns])
    have h4 := hall (matchAllocDecl constLit allyLit false, "ally")
      (by simp [allocPatterns])
    have h5 := hall (matchAllocDecl varLit allocLit true, "alloc")
      (by simp [allocPatterns])
    have h6 := hall (matchAllocDecl varLit allocatorLit true, "allocator")
      (by simp [allocPatterns])
    simp [detectAllocatorName, allocPatterns, List.find?, h1, h2, h3, h4, h5, h6, hc]

/-- C7 counterexample: the positionally first recognized declaration in the
file binds `allocator`, but `detect_allocator_name` returns `alloc` because
the `const alloc` pattern has higher priority in the pattern list. -/
theorem c7_counterexample :
    firstOccName
      "const allocator = std.testing.allocator\nconst alloc = std.testing.allocator".data =
      some "allocator" ∧
    detectAllocatorName
      "const allocator = std.testing.allocator\nconst alloc = std.testing.allocator".data =
      "alloc" := by decide

theorem c7_witness :
    detectAllocatorName "const gpa = 3".data = "gpa" ∧
    detectAllocatorName "var allocator = std.testing.allocator".data = "allocator" := by
  refine ⟨(c7_priority_order "const gpa = 3".data).2.2.1 (by decide) (by decide)
    (by decide), ?_⟩
  exact (c7_priority_order "var allocator = std.testing.allocator".data).2.2.2.2.2.1
    (by decide) (by decide) (by decide) (by decide) (by decide) (by decide)

/-!
## C1 / C8 — the blank-line collapse and the duplicate-import removal
-/

theorem nlRun_cons (c : Char) (t : List Char) :
    nlRun (c :: t) = if c = '\n' then 1 + nlRun t else 0 := by
  unfold nlRun
  rw [List.takeWhile_cons]
  by_cases h : c = '\n'
  · simp only [h, beq_self_eq_true, if_pos, List.length_cons, if_true]
    omega
  · have hb : ((c == '\n') : Bool) = false := by simp [h]
    rw [hb, if_neg h]
    rfl

theorem replicate_nl_isPrefixOf_iff :
    ∀ (j : Nat) (x : List Char),
      (List.replicate j '\n').isPrefixOf x = true ↔ j ≤ nlRun x := by
  intro j
  induction j with
  | zero => intro x; simp [List.isPrefixOf]
  | succ j ih =>
    intro x
    cases x with
    | nil =>
      simp only [List.replicate_succ, List.isPrefixOf]
      constructor
      · intro h; cases h
      · intro h; unfold nlRun at h; simp at h
    | cons c t =>
      rw [List.replicate_succ]
      show ((('\n' : Char) == c) && (List.replicate j '\n').isPrefixOf t) = true ↔ _
      by_cases hc : c = '\n'
      · subst hc
        have h1 : nlRun ('\n' :: t) = 1 + nlRun t := by rw [nlRun_cons]; simp
        rw [h1]
        simp only [beq_self_eq_true, Bool.true_and]
        rw [ih t]
        omega
      · have h0 : nlRun (c :: t) = 0 := by rw [nlRun_cons, if_neg hc]
        have hbeq : (('\n' : Char) == c) = false := by
          cases hb : (('\n' : Char) == c) with
          | false => rfl
          | true => exact absurd (by simpa using hb : '\n' = c).symm hc
        rw [h0, hbeq]
        simp

theorem mRule6_eq_none_iff (rp s : List Char) :
    mRule6 rp s = none ↔ nlRun s < 3 := by
  simp only [mRule6]
  split
  · next h =>
    constructor
    · intro hx; cases hx
    · intro hx; unfold nlRun at hx; omega
  · next h =>
    constructor
    · intro _; unfold nlRun; omega
    · intro _; rfl

theorem mRule6_eq_some (rp s : List Char) (h : 3 ≤ nlRun s) :
    mRule6 rp s = some (nlRun s, ['\n', '\n']) := by
  unfold nlRun at h ⊢
  simp only [mRule6]
  rw [if_pos h]

theorem subCtx_cons_some {m : List Char → List Char → Option (Nat × List Char)}
    {rp : List Char} {c : Char} {rest : List Char} {n : Nat} {r : List Char}
    (h : m rp (c :: rest) = some (n, r)) :
    subCtx m 0 rp (c :: rest) = r ++ subCtx m (n - 1) (c :: rp) rest := by
  rw [subCtx, h]

theorem subCtx_cons_none {m : List Char → List Char → Option (Nat × List Char)}
    {rp : List Char} {c : Char} {rest : List Char}
    (h : m rp (c :: rest) = none) :
    subCtx m 0 rp (c :: rest) = c :: subCtx m 0 (c :: rp) rest := by
  rw [subCtx, h]

theorem drop_nlRun (s : List Char) :
    s.drop (nlRun s) = s.dropWhile (fun c => c == '\n') := by
  induction s with
  | nil => rfl
  | cons c t ih =>
    rw [nlRun_cons, List.dropWhile_cons]
    by_cases h : c = '\n'
    · have hb : ((c == '\n') : Bool) = true := by simp [h]
      rw [if_pos h, hb]
      rw [show (1 + nlRun t) = nlRun t + 1 from by omega]
      simpa using ih
    · have hb : ((c == '\n') : Bool) = false := by simp [h]
      rw [if_neg h, hb]
      simp

theorem nlRun_dropWhile (s : List Char) :
    nlRun (s.dropWhile (fun c => c == '\n')) = 0 := by
  cases h : s.dropWhile (fun c => c == '\n') with
  | nil => rfl
  | cons x t =>
    have hx := dropWhile_head_false h
    rw [nlRun_cons, if_neg (by simpa using hx)]

theorem rule6_scan_bound :
    ∀ (N : Nat) (s rp : List Char), s.length ≤ N →
      nlRun (subCtx mRule6 0 rp s) = min (nlRun s) 2 ∧
      containsSub tripleNl (subCtx mRule6 0 rp s) = false := by
  intro N
  induction N with
  | zero =>
    intro s rp h
    have hnil : s = [] := by
      cases s with
      | nil => rfl
      | cons c t => simp at h
    subst hnil
    exact ⟨rfl, rfl⟩
  | succ N ih =>
    intro s rp hlen
    cases s with
    | nil => exact ⟨rfl, rfl⟩
    | cons c rest =>
      by_cases h3 : 3 ≤ nlRun (c :: rest)
      · rw [subCtx_cons_some (mRule6_eq_some rp (c :: rest) h3)]
        have hdrop : rest.drop (nlRun (c :: rest) - 1) =
            (c :: rest).drop (nlRun (c :: rest)) := by
          cases he : nlRun (c :: rest) with
          | zero => omega
          | succ m => simp
        rw [subCtx_skip_eq, hdrop, drop_nlRun]
        simp only [List.cons_append, List.nil_append]
        have hrec := ih ((c :: rest).dropWhile (fun c => c == '\n'))
          ((rest.take (nlRun (c :: rest) - 1)).reverse ++ c :: rp) ?_
        · obtain ⟨h1, h2⟩ := hrec
          rw [nlRun_dropWhile] at h1
          constructor
          · rw [nlRun_cons, if_pos rfl, nlRun_cons, if_pos rfl, h1]
            omega
          · rw [containsSub_cons, containsSub_cons]
            have hp1 : tripleNl.isPrefixOf ('\n' :: '\n' ::
                subCtx mRule6 0 ((rest.take (nlRun (c :: rest) - 1)).reverse ++ c :: rp)
                  ((c :: rest).dropWhile (fun c => c == '\n'))) = false := by
              cases hb : tripleNl.isPrefixOf _ with
              | false => rfl
              | true =>
                rw [show tripleNl = List.replicate 3 '\n' from rfl,
                  replicate_nl_isPrefixOf_iff] at hb
                rw [nlRun_cons, if_pos rfl, nlRun_cons, if_pos rfl, h1] at hb
                omega
            have hp2 : tripleNl.isPrefixOf ('\n' ::
                subCtx mRule6 0 ((rest.take (nlRun (c :: rest) - 1)).reverse ++ c :: rp)
                  ((c :: rest).dropWhile (fun c => c == '\n'))) = false := by
              cases hb : tripleNl.isPrefixOf _ with
              | false => rfl
              | true =>
                rw [show tripleNl = List.replicate 3 '\n' from rfl,
                  replicate_nl_isPrefixOf_iff] at hb
                rw [nlRun_cons, if_pos rfl, h1] at hb
                omega
            rw [hp1, hp2, h2]
            rfl
        · have hrun_le : nlRun (c :: rest) ≤ (c :: rest).length := by
            unfold nlRun
            exact (List.takeWhile_prefix _).length_le
          have hlen2 : ((c :: rest).dropWhile (fun c => c == '\n')).length ≤
              (c :: rest).length - 3 := by
            rw [← drop_nlRun, List.length_drop]
            omega
          simp only [List.length_cons] at hlen hlen2 ⊢
          omega
      · have hnone : mRule6 rp (c :: rest) = none := (mRule6_eq_none_iff _ _).mpr (by omega)
        rw [subCtx_cons_none hnone]
        have hrec := ih rest (c :: rp) (by simp at hlen; omega)
        obtain ⟨h1, h2⟩ := hrec
        by_cases hc : c = '\n'
        · subst hc
          have hrun : nlRun ('\n' :: rest) = 1 + nlRun rest := by
            rw [nlRun_cons, if_pos rfl]
          rw [hrun] at h3
          constructor
          · rw [nlRun_cons, if_pos rfl, h1, hrun]
            omega
          · rw [containsSub_cons]
            have hp : tripleNl.isPrefixOf ('\n' :: subCtx mRule6 0 ('\n' :: rp) rest) =
                false := by
              cases hb : tripleNl.isPrefixOf _ with
              | false => rfl
              | true =>
                rw [show tripleNl = List.replicate 3 '\n' from rfl,
                  replicate_nl_isPrefixOf_iff] at hb
                rw [nlRun_cons, if_pos rfl, h1] at hb
                omega
            rw [hp, h2]
            rfl
        · have hrun : nlRun (c :: rest) = 0 := by
            rw [nlRun_cons, if_neg hc]
          constructor
          · rw [nlRun_cons, if_neg hc, hrun]
            omega
          · rw [containsSub_cons]
            have hp : tripleNl.isPrefixOf (c :: subCtx mRule6 0 (c :: rp) rest) =
                false := by
              cases hb : tripleNl.isPrefixOf _ with
              | false => rfl
              | true =>
                rw [show tripleNl = List.replicate 3 '\n' from rfl,
                  replicate_nl_isPrefixOf_iff] at hb
                rw [nlRun_cons, if_neg hc] at hb
                omega
            rw [hp, h2]
            rfl

theorem rule6_no_triple (s : List Char) :
    containsSub tripleNl (runSub mRule6 s) = false :=
  (rule6_scan_bound s.length s [] (Nat.le_refl _)).2

theorem rule6_id_of_no_triple {s : List Char} (h : containsSub tripleNl s = false) :
    runSub mRule6 s = s := by
  apply subCtx_id_of_no_match
  intro rp1 t ht
  rw [mRule6_eq_none_iff]
  by_contra hge
  have h3 : 3 ≤ nlRun t := by omega
  have hpre : tripleNl.isPrefixOf t = true := by
    rw [show tripleNl = List.replicate 3 '\n' from rfl, replicate_nl_isPrefixOf_iff]
    exact h3
  rw [containsSub_of_suffix_pre ht hpre] at h
  cases h

theorem dedupeTrue_filter : ∀ (ls : List (List Char)),
    dedupeStdAux true ls = ls.filter (fun l => !(stripP l == stdImportLine)) := by
  intro ls
  induction ls with
  | nil => rfl
  | cons l ls ih =>
    rw [dedupeStdAux]
    by_cases h : stripP l = stdImportLine
    · rw [if_pos h, ih, List.filter_cons]
      simp [h, beq_iff_eq]
    · rw [if_neg h, ih, List.filter_cons]
      simp [h, beq_iff_eq]

theorem findIdx?_start_shift {α : Type} (p : α → Bool) :
    ∀ (xs : List α) (i : Nat),
      List.findIdx? p xs i = (List.findIdx? p xs 0).map (fun k => k + i) := by
  intro xs
  induction xs with
  | nil => intro i; rfl
  | cons x xs ih =>
    intro i
    rw [List.findIdx?_cons, List.findIdx?_cons]
    by_cases h : p x
    · rw [if_pos h, if_pos h]
      simp
    · rw [if_neg h, if_neg h, ih (i + 1), ih 1, Option.map_map]
      cases List.findIdx? p xs 0 with
      | none => rfl
      | some k =>
        show some (k + (i + 1)) = some (k + 1 + i)
        congr 1
        omega

theorem dedupeAux_eq_specKeepFirstImport : ∀ (ls : List (List Char)),
    dedupeStdAux false ls = specKeepFirstImport ls := by
  intro ls
  induction ls with
  | nil => rfl
  | cons l ls ih =>
    unfold specKeepFirstImport
    rw [List.findIdx?_cons]
    by_cases h : stripP l = stdImportLine
    · rw [if_pos (by simp [h])]
      rw [dedupeStdAux, if_pos h, dedupeTrue_filter]
      simp
    · rw [if_neg (by simp [h]), findIdx?_start_shift _ ls 1]
      rw [dedupeStdAux, if_neg h, ih]
      unfold specKeepFirstImport
      cases hf : List.findIdx? (fun l => stripP l == stdImportLine) ls 0 with
      | none => rfl
      | some j =>
        show _ = (l :: ls).take (j + 1 + 1) ++
          ((l :: ls).drop (j + 1 + 1)).filter (fun l => !(stripP l == stdImportLine))
        rw [show j + 1 + 1 = (j + 1) + 1 from rfl, List.take_succ_cons,
          List.drop_succ_cons]
        rfl

/-- C8 (amended): the structural cleanup collapses every run of three or more
newline characters — i.e. two or more consecutive blank lines — into exactly
one blank line (`\n\n`); texts without such a run are left unchanged by the
collapse step, and no such run survives the pass.  Duplicate
`const std = @import("std");` lines are removed keeping exactly the
positionally first one. -/
theorem c8_structural_cleanup (s : List Char) :
    (containsSub tripleNl s = false → runSub mRule6 s = s) ∧
    containsSub tripleNl (fixComprehensiveText s) = false ∧
    dedupeStdAux false (splitNl s) = specKeepFirstImport (splitNl s) := by
  refine ⟨fun h => rule6_id_of_no_triple h, ?_, dedupeAux_eq_specKeepFirstImport _⟩
  show containsSub tripleNl (runSub mRule6 _) = false
  exact rule6_no_triple _

/-- C8 counterexample: `a\n\n\nb` contains exactly two consecutive blank
lines — fewer than three — yet the pass rewrites it to `a\n\nb` instead of
leaving it as it is. -/
theorem c8_counterexample :
    fixComprehensiveText "a\n\n\nb".data ≠ "a\n\n\nb".data ∧
    fixComprehensiveText "a\n\n\nb".data = "a\n\nb".data := by decide

theorem c8_witness :
    runSub mRule6 "a\n\nb".data = "a\n\nb".data := by
  exact (c8_structural_cleanup "a\n\nb".data).1 (by decide)

/-!
## C2 — comment/string safety of the cleanup-call rewrites

Infrastructure: characterizations of the two matchers, the fact that
matches of one pattern cannot overlap a later match position of the same
pattern, and the scan-reach lemma showing that a protected match region is
emitted verbatim.
-/

theorem drop_takeWhile_len (p : Char → Bool) : ∀ (l : List Char),
    l.drop ((l.takeWhile p).length) = l.dropWhile p := by
  intro l
  induction l with
  | nil => rfl
  | cons c t ih =>
    rw [List.takeWhile_cons, List.dropWhile_cons]
    by_cases h : p c
    · rw [if_pos h, if_pos h]
      simpa using ih
    · rw [if_neg h, if_neg h]
      simp

theorem beq_char_false_of_ne {c d : Char} (h : ¬c = d) : (c == d) = false := by
  cases hb : (c == d) with
  | false => rfl
  | true => exact absurd (by simpa using hb) h

theorem isPrefixOf_cons_false {c d : Char} {p x : List Char} (h : (c == d) = false) :
    (c :: p).isPrefixOf (d :: x) = false := by
  simp [List.isPrefixOf, h]

theorem isWordChar_not_space {c : Char} (h : isWordChar c = true) :
    isPySpace c = false := by
  cases hs : isPySpace c with
  | false => rfl
  | true =>
    unfold isPySpace at hs
    simp only [Bool.or_eq_true, beq_iff_eq] at hs
    rcases hs with ((((h1 | h1) | h1) | h1) | h1) | h1 <;>
      (subst h1; exact absurd h (by decide))

theorem getD_eq_headD_drop (orig : List Char) (k : Nat) (d : Char) :
    orig.getD k d = ((orig.drop k).head?).getD d := by
  rw [List.head?_drop, List.getD_eq_getElem?_getD]

/-- Unfolding `subSkip` at a match position, with the continuation re-anchored
just after the matched region. -/
theorem subSkip_step_some (orig : List Char) (m : List Char → Nat → Option Nat)
    (repl : List Char) {c : Char} {rest : List Char} {i n : Nat}
    (hc : orig.drop i = c :: rest) (h : m orig i = some n) (hn : 1 ≤ n) :
    subSkip orig m repl 0 (orig.drop i) i =
      (if isInsideCommentOrString orig i then (orig.drop i).take n else repl) ++
        subSkip orig m repl 0 (orig.drop (i + n)) (i + n) := by
  have hrest : rest = orig.drop (i + 1) := by
    have ht := List.tail_drop orig i
    rw [hc] at ht
    simpa using ht
  have e1 : subSkip orig m repl 0 (c :: rest) i =
      (if isInsideCommentOrString orig i then (c :: rest).take n else repl) ++
        subSkip orig m repl (n - 1) rest (i + 1) := by
    rw [subSkip, h]
  rw [hc, e1, subSkip_skip_eq, hrest, List.drop_drop]
  have h1 : i + 1 + (n - 1) = i + n := by omega
  rw [h1]

theorem subSkip_step_none (orig : List Char) (m : List Char → Nat → Option Nat)
    (repl : List Char) {c : Char} {rest : List Char} {i : Nat}
    (hc : orig.drop i = c :: rest) (h : m orig i = none) :
    subSkip orig m repl 0 (orig.drop i) i =
      c :: subSkip orig m repl 0 (orig.drop (i + 1)) (i + 1) := by
  have hrest : rest = orig.drop (i + 1) := by
    have ht := List.tail_drop orig i
    rw [hc] at ht
    simpa using ht
  have e1 : subSkip orig m repl 0 (c :: rest) i =
      c :: subSkip orig m repl 0 rest (i + 1) := by
    rw [subSkip, h]
  rw [hc, e1, hrest]

theorem drop_ne_nil_of_lt {orig : List Char} {j : Nat} (h : j < orig.length) :
    ∃ c rest, orig.drop j = c :: rest := by
  cases hd : orig.drop j with
  | nil =>
    have hl := List.length_drop j orig
    rw [hd] at hl
    simp at hl
    omega
  | cons c rest => exact ⟨c, rest, rfl⟩

/-- The scan-reach lemma: if the matcher fires at position `i`, matches never
overlap a later match position, and position `i` is judged inside a comment
or string, then the scan started at any position `j ≤ i` emits the matched
region verbatim, followed by the scan of the rest. -/
theorem subSkip_reach (orig : List Char) (m : List Char → Nat → Option Nat)
    (repl : List Char)
    (hB : ∀ i n, m orig i = some n → 1 ≤ n ∧ i + n ≤ orig.length)
    {i n : Nat}
    (hNO : ∀ j n2, m orig j = some n2 → j < i → i < j + n2 → False)
    (hm : m orig i = some n)
    (hin : isInsideCommentOrString orig i = true) :
    ∀ (d j : Nat), i = j + d →
      ∃ a, subSkip orig m repl 0 (orig.drop j) j =
        a ++ (orig.drop i).take n ++
          subSkip orig m repl 0 (orig.drop (i + n)) (i + n) := by
  intro d
  induction d using Nat.strong_induction_on with
  | _ d ih =>
    intro j hj
    have hbounds := hB i n hm
    have hi_lt : i < orig.length := by omega
    have hj_lt : j < orig.length := by omega
    obtain ⟨c, rest, hcons⟩ := drop_ne_nil_of_lt hj_lt
    by_cases hji : j = i
    · subst hji
      refine ⟨[], ?_⟩
      rw [subSkip_step_some orig m repl hcons hm hbounds.1, if_pos hin,
        List.nil_append]
    · have hjlt : j < i := by omega
      cases hmj : m orig j with
      | none =>
        obtain ⟨a, ha⟩ := ih (d - 1) (by omega) (j + 1) (by omega)
        refine ⟨c :: a, ?_⟩
        rw [subSkip_step_none orig m repl hcons hmj, ha]
        rfl
      | some n2 =>
        have hb2 := hB j n2 hmj
        have hle : j + n2 ≤ i := by
          by_contra hgt
          exact hNO j n2 hmj hjlt (by omega)
        obtain ⟨a, ha⟩ := ih (i - (j + n2)) (by omega) (j + n2) (by omega)
        refine ⟨(if isInsideCommentOrString orig j then (orig.drop j).take n2
          else repl) ++ a, ?_⟩
        rw [subSkip_step_some orig m repl hcons hmj hb2.1, ha]
        simp

/-- Elimination form of `matchDeferAt`: a match decomposes the suffix at `i`
into the literal `defer`, a nonempty whitespace run, the variable name and
`.deinit()`, records the word-boundary condition, and determines the match
length. -/
theorem matchDeferAt_some_elim {v orig : List Char} {i n : Nat}
    (h : matchDeferAt v orig i = some n) :
    noWordBefore orig i = true ∧
    ∃ W, (∀ c ∈ W, isPySpace c = true) ∧ W ≠ [] ∧
      orig.drop i = deferLit ++ (W ++ (v ++ (dotDeinitParen ++ orig.drop (i + n)))) ∧
      n = 5 + W.length + v.length + 9 ∧ i + n ≤ orig.length := by
  simp only [matchDeferAt] at h
  split at h
  · exact absurd h (by simp)
  next hnw =>
  split at h
  next => exact absurd h (by simp)
  next r1 heq1 =>
  split at h
  next => exact absurd h (by simp)
  next hw =>
  split at h
  next => exact absurd h (by simp)
  next r2 heq2 =>
  split at h
  next => exact absurd h (by simp)
  next r3 heq3 =>
  injection h with hn
  have hd1 : orig.drop i = deferLit ++ r1 := strLit_eq_some.mp heq1
  have hWws : ∀ c ∈ r1.takeWhile isPySpace, isPySpace c = true := by
    intro c hc
    exact List.mem_takeWhile_imp hc
  have hlen0 : ¬ ((r1.takeWhile isPySpace).length = 0) := by simpa using hw
  have hWne : r1.takeWhile isPySpace ≠ [] := by
    intro hnn
    exact hlen0 (by rw [hnn]; rfl)
  have hdropW : r1.drop (r1.takeWhile isPySpace).length = r1.dropWhile isPySpace :=
    drop_takeWhile_len isPySpace r1
  have hd2 : r1.dropWhile isPySpace = v ++ r2 := by
    have h2 := strLit_eq_some.mp heq2
    rw [hdropW] at h2
    exact h2
  have hd3 : r2 = dotDeinitParen ++ r3 := strLit_eq_some.mp heq3
  have hr1A : r1 = r1.takeWhile isPySpace ++ (v ++ (dotDeinitParen ++ r3)) := by
    conv_lhs => rw [← List.takeWhile_append_dropWhile (p := isPySpace) (l := r1)]
    rw [hd2, hd3]
  have hdecomp : orig.drop i =
      deferLit ++ (r1.takeWhile isPySpace ++ (v ++ (dotDeinitParen ++ r3))) := by
    rw [hd1]
    conv_lhs => rw [hr1A]
  have h5 : deferLit.length = 5 := by decide
  have h9 : dotDeinitParen.length = 9 := by decide
  have hnval : n = 5 + (r1.takeWhile isPySpace).length + v.length + 9 := by omega
  have hlen4 : (deferLit ++ (r1.takeWhile isPySpace ++ (v ++ dotDeinitParen))).length = n := by
    simp only [List.length_append]
    omega
  have hr3 : r3 = orig.drop (i + n) := by
    have h1 : (orig.drop i).drop n = orig.drop (i + n) := by
      rw [List.drop_drop]
    rw [hdecomp] at h1
    rw [show deferLit ++ (r1.takeWhile isPySpace ++ (v ++ (dotDeinitParen ++ r3))) =
        (deferLit ++ (r1.takeWhile isPySpace ++ (v ++ dotDeinitParen))) ++ r3 by
      simp [List.append_assoc]] at h1
    rw [List.drop_left' hlen4] at h1
    exact h1
  have hile : i + n ≤ orig.length := by
    have hlentot : (orig.drop i).length = n + (orig.drop (i + n)).length := by
      rw [hdecomp, hr3]
      simp only [List.length_append]
      omega
    have hld := List.length_drop i orig
    have hld2 := List.length_drop (i + n) orig
    omega
  refine ⟨by simpa using hnw, r1.takeWhile isPySpace, hWws, hWne, ?_, hnval, hile⟩
  rw [hdecomp, hr3]

/-- Elimination form of `matchDeinitAt`. -/
theorem matchDeinitAt_some_elim {v orig : List Char} {i n : Nat}
    (h : matchDeinitAt v orig i = some n) :
    noWordBefore orig i = true ∧
      orig.drop i = v ++ (dotDeinitSemi ++ orig.drop (i + n)) ∧
      n = v.length + 10 ∧ i + n ≤ orig.length := by
  simp only [matchDeinitAt] at h
  split at h
  · exact absurd h (by simp)
  next hnw =>
  split at h
  next => exact absurd h (by simp)
  next r1 heq1 =>
  split at h
  next => exact absurd h (by simp)
  next r2 heq2 =>
  injection h with hn
  have hd1 : orig.drop i = v ++ r1 := strLit_eq_some.mp heq1
  have hd2 : r1 = dotDeinitSemi ++ r2 := strLit_eq_some.mp heq2
  have hdecomp : orig.drop i = v ++ (dotDeinitSemi ++ r2) := by
    rw [hd1, hd2]
  have h10 : dotDeinitSemi.length = 10 := by decide
  have hnval : n = v.length + 10 := by omega
  have hlen2 : (v ++ dotDeinitSemi).length = n := by
    simp only [List.length_append]
    omega
  have hr2 : r2 = orig.drop (i + n) := by
    have h1 : (orig.drop i).drop n = orig.drop (i + n) := by
      rw [List.drop_drop]
    rw [hdecomp] at h1
    rw [show v ++ (dotDeinitSemi ++ r2) = (v ++ dotDeinitSemi) ++ r2 by
      simp [List.append_assoc]] at h1
    rw [List.drop_left' hlen2] at h1
    exact h1
  have hile : i + n ≤ orig.length := by
    have hlentot : (orig.drop i).length = n + (orig.drop (i + n)).length := by
      rw [hdecomp, hr2]
      simp only [List.length_append]
      omega
    have hld := List.length_drop i orig
    have hld2 := List.length_drop (i + n) orig
    omega
  refine ⟨by simpa using hnw, ?_, hnval, hile⟩
  rw [hdecomp, hr2]

/-- Character-level reading of a defer-match decomposition: the character of
`orig` at each absolute position within the match region. -/
theorem deferDecomp_char (orig W v R : List Char) {i : Nat}
    (hD : orig.drop i = deferLit ++ (W ++ (v ++ (dotDeinitParen ++ R)))) :
    (∀ q p, p < 5 → q = i + p → orig[q]? = deferLit[p]?) ∧
    (∀ q p, p < W.length → q = i + (5 + p) → orig[q]? = W[p]?) ∧
    (∀ q p, p < v.length → q = i + (5 + W.length + p) → orig[q]? = v[p]?) ∧
    (∀ q p, p < 9 → q = i + (5 + W.length + v.length + p) →
      orig[q]? = dotDeinitParen[p]?) := by
  have hbase : ∀ idx,
      orig[i + idx]? = (deferLit ++ (W ++ (v ++ (dotDeinitParen ++ R))))[idx]? := by
    intro idx
    rw [← List.getElem?_drop, hD]
  have h5 : deferLit.length = 5 := by decide
  have h9 : dotDeinitParen.length = 9 := by decide
  refine ⟨?_, ?_, ?_, ?_⟩
  · intro q p hp hq
    subst hq
    rw [hbase p, List.getElem?_append, if_pos (by omega)]
  · intro q p hp hq
    subst hq
    rw [hbase _, List.getElem?_append, if_neg (by omega), h5,
      show 5 + p - 5 = p from by omega,
      List.getElem?_append, if_pos hp]
  · intro q p hp hq
    subst hq
    rw [hbase _, List.getElem?_append, if_neg (by omega), h5,
      show 5 + W.length + p - 5 = W.length + p from by omega,
      List.getElem?_append, if_neg (by omega),
      show W.length + p - W.length = p from by omega,
      List.getElem?_append, if_pos hp]
  · intro q p hp hq
    subst hq
    rw [hbase _, List.getElem?_append, if_neg (by omega), h5,
      show 5 + W.length + v.length + p - 5 = W.length + (v.length + p) from by omega,
      List.getElem?_append, if_neg (by omega),
      show W.length + (v.length + p) - W.length = v.length + p from by omega,
      List.getElem?_append, if_neg (by omega),
      show v.length + p - v.length = p from by omega,
      List.getElem?_append, if_pos (by omega)]

/-- Character-level reading of a deinit-match decomposition. -/
theorem deinitDecomp_char (orig v R : List Char) {i : Nat}
    (hD : orig.drop i = v ++ (dotDeinitSemi ++ R)) :
    (∀ q p, p < v.length → q = i + p → orig[q]? = v[p]?) ∧
    (∀ q p, p < 10 → q = i + (v.length + p) → orig[q]? = dotDeinitSemi[p]?) := by
  have hbase : ∀ idx, orig[i + idx]? = (v ++ (dotDeinitSemi ++ R))[idx]? := by
    intro idx
    rw [← List.getElem?_drop, hD]
  have h10 : dotDeinitSemi.length = 10 := by decide
  constructor
  · intro q p hp hq
    subst hq
    rw [hbase p, List.getElem?_append, if_pos hp]
  · intro q p hp hq
    subst hq
    rw [hbase _, List.getElem?_append, if_neg (by omega),
      show v.length + p - v.length = p from by omega,
      List.getElem?_append, if_pos (by omega)]

/-- Two defer-matches for the same variable can never strictly overlap: a
match starting inside the region of an earlier match is impossible. -/
theorem matchDeferAt_no_overlap {v orig : List Char} {j i n2 n : Nat}
    (hv : wfVar v)
    (hj : matchDeferAt v orig j = some n2)
    (hi : matchDeferAt v orig i = some n)
    (hlt : j < i) (hov : i < j + n2) : False := by
  obtain ⟨hnwj, W, hWws, hWne, hDj, hn2, hjle⟩ := matchDeferAt_some_elim hj
  obtain ⟨hnwi, W', hWws', hWne', hDi, hn', hile⟩ := matchDeferAt_some_elim hi
  obtain ⟨hCj1, hCj2, hCj3, hCj4⟩ := deferDecomp_char orig W v _ hDj
  obtain ⟨hCi1, hCi2, hCi3, hCi4⟩ := deferDecomp_char orig W' v _ hDi
  obtain ⟨t, rfl⟩ : ∃ t, i = j + t := ⟨i - j, by omega⟩
  have ht1 : 1 ≤ t := by omega
  have htn : t < 5 + W.length + v.length + 9 := by omega
  rcases Nat.lt_or_ge t 5 with hA | hA
  · have e1 : orig[j + t]? = deferLit[0]? := hCi1 _ 0 (by omega) (by omega)
    have e2 : orig[j + t]? = deferLit[t]? := hCj1 _ t hA (by omega)
    rw [e1] at e2
    have hno : ∀ p, p < 5 → 1 ≤ p → ¬ (deferLit[0]? = deferLit[p]?) := by decide
    exact hno t hA ht1 e2
  rcases Nat.lt_or_ge t (5 + W.length) with hB | hB
  · have e1 : orig[j + t]? = deferLit[0]? := hCi1 _ 0 (by omega) (by omega)
    have e2 : orig[j + t]? = W[t - 5]? := hCj2 _ (t - 5) (by omega) (by omega)
    rw [e1] at e2
    have hlt2 : t - 5 < W.length := by omega
    rw [List.getElem?_eq_getElem hlt2,
      show deferLit[0]? = some 'd' from by decide] at e2
    have hwv : isPySpace (W[t - 5]) = true := hWws _ (List.getElem_mem _)
    rw [← Option.some.inj e2] at hwv
    exact absurd hwv (by decide)
  rcases Nat.lt_or_ge t (5 + W.length + 1) with hC | hC
  · have hW'pos : 0 < W'.length := List.length_pos.mpr hWne'
    have e1 : orig[j + t + 5]? = W'[0]? := hCi2 _ 0 hW'pos (by omega)
    rw [List.getElem?_eq_getElem hW'pos] at e1
    have hws' : isPySpace (W'[0]) = true := hWws' _ (List.getElem_mem _)
    rcases Nat.lt_or_ge 5 v.length with hk5 | hk5
    · have e2 : orig[j + t + 5]? = v[5]? := hCj3 _ 5 hk5 (by omega)
      rw [List.getElem?_eq_getElem hk5, e1] at e2
      have hword : isWordChar (v[5]) = true := hv.2 _ (List.getElem_mem _)
      rw [← Option.some.inj e2] at hword
      rw [isWordChar_not_space hword] at hws'
      exact absurd hws' (by decide)
    · have e2 : orig[j + t + 5]? = dotDeinitParen[5 - v.length]? :=
        hCj4 _ (5 - v.length) (by omega) (by omega)
      have hlt4 : 5 - v.length < dotDeinitParen.length := by
        rw [show dotDeinitParen.length = 9 from by decide]
        omega
      rw [List.getElem?_eq_getElem hlt4, e1] at e2
      have hnp : ∀ c ∈ dotDeinitParen, isPySpace c = false := by decide
      rw [Option.some.inj e2, hnp _ (List.getElem_mem _)] at hws'
      exact absurd hws' (by decide)
  rcases Nat.lt_or_ge t (5 + W.length + v.length) with hD1 | hD2
  · have e2 : orig[j + t - 1]? = v[t - 1 - (5 + W.length)]? :=
      hCj3 _ (t - 1 - (5 + W.length)) (by omega) (by omega)
    have hltv : t - 1 - (5 + W.length) < v.length := by omega
    rw [List.getElem?_eq_getElem hltv] at e2
    have hword : isWordChar (v[t - 1 - (5 + W.length)]) = true :=
      hv.2 _ (List.getElem_mem _)
    have hnw := hnwi
    unfold noWordBefore at hnw
    rw [if_neg (by simp; omega)] at hnw
    rw [List.getD_eq_getElem?_getD, e2] at hnw
    simp only [Option.getD_some] at hnw
    rw [hword] at hnw
    exact absurd hnw (by decide)
  · obtain ⟨u2, rfl⟩ : ∃ u2, t = 5 + W.length + v.length + u2 :=
      ⟨t - (5 + W.length + v.length), by omega⟩
    have hu2 : u2 < 9 := by omega
    have e1 : orig[j + (5 + W.length + v.length + u2)]? = deferLit[0]? :=
      hCi1 _ 0 (by omega) (by omega)
    have e2 : orig[j + (5 + W.length + v.length + u2)]? = dotDeinitParen[u2]? :=
      hCj4 _ u2 hu2 (by omega)
    rw [e1] at e2
    by_cases hu1 : u2 = 1
    · subst hu1
      have e3 : orig[j + (5 + W.length + v.length + 1) + 2]? = deferLit[2]? :=
        hCi1 _ 2 (by omega) (by omega)
      have e4 : orig[j + (5 + W.length + v.length + 1) + 2]? = dotDeinitParen[3]? :=
        hCj4 _ 3 (by omega) (by omega)
      rw [e3] at e4
      exact absurd e4 (by decide)
    · have hno : ∀ p, p < 9 → ¬ (p = 1) → ¬ (deferLit[0]? = dotDeinitParen[p]?) := by
        decide
      exact hno u2 hu2 hu1 e2

/-- Two deinit-matches for the same variable can never strictly overlap. -/
theorem matchDeinitAt_no_overlap {v orig : List Char} {j i n2 n : Nat}
    (hv : wfVar v)
    (hj : matchDeinitAt v orig j = some n2)
    (hi : matchDeinitAt v orig i = some n)
    (hlt : j < i) (hov : i < j + n2) : False := by
  obtain ⟨hnwj, hDj, hn2, hjle⟩ := matchDeinitAt_some_elim hj
  obtain ⟨hnwi, hDi, hn', hile⟩ := matchDeinitAt_some_elim hi
  obtain ⟨hCj1, hCj2⟩ := deinitDecomp_char orig v _ hDj
  obtain ⟨hCi1, hCi2⟩ := deinitDecomp_char orig v _ hDi
  obtain ⟨t, rfl⟩ : ∃ t, i = j + t := ⟨i - j, by omega⟩
  have hkpos : 0 < v.length := List.length_pos.mpr hv.1
  have ht1 : 1 ≤ t := by omega
  have htn : t < v.length + 10 := by omega
  rcases Nat.lt_or_ge t v.length with hA | hA
  · have e3 : orig[j + t - 1]? = v[t - 1]? := hCj1 _ (t - 1) (by omega) (by omega)
    have hltv : t - 1 < v.length := by omega
    rw [List.getElem?_eq_getElem hltv] at e3
    have hword : isWordChar (v[t - 1]) = true := hv.2 _ (List.getElem_mem _)
    have hnw := hnwi
    unfold noWordBefore at hnw
    rw [if_neg (by simp; omega)] at hnw
    rw [List.getD_eq_getElem?_getD, e3] at hnw
    simp only [Option.getD_some] at hnw
    rw [hword] at hnw
    exact absurd hnw (by decide)
  obtain ⟨u2, rfl⟩ : ∃ u2, t = v.length + u2 := ⟨t - v.length, by omega⟩
  have hu2 : u2 < 10 := by omega
  have e1 : orig[j + (v.length + u2)]? = v[0]? := hCi1 _ 0 hkpos (by omega)
  have e2 : orig[j + (v.length + u2)]? = dotDeinitSemi[u2]? := hCj2 _ u2 hu2 (by omega)
  rw [e1, List.getElem?_eq_getElem hkpos] at e2
  have hword0 : isWordChar (v[0]) = true := hv.2 _ (List.getElem_mem _)
  by_cases hu1 : u2 = 1
  · subst hu1
    rcases Nat.lt_or_ge 6 v.length with hk7 | hk6
    · have e3 : orig[j + (v.length + 1) + 6]? = v[6]? := hCi1 _ 6 hk7 (by omega)
      have e4 : orig[j + (v.length + 1) + 6]? = dotDeinitSemi[7]? :=
        hCj2 _ 7 (by omega) (by omega)
      rw [e3, List.getElem?_eq_getElem hk7,
        show dotDeinitSemi[7]? = some '(' from by decide] at e4
      have hword6 : isWordChar (v[6]) = true := hv.2 _ (List.getElem_mem _)
      rw [Option.some.inj e4] at hword6
      exact absurd hword6 (by decide)
    · have e3 : orig[j + (v.length + 1) + v.length]? = dotDeinitSemi[0]? :=
        hCi2 _ 0 (by omega) (by omega)
      have e4 : orig[j + (v.length + 1) + v.length]? = dotDeinitSemi[1 + v.length]? :=
        hCj2 _ (1 + v.length) (by omega) (by omega)
      rw [e3, show dotDeinitSemi[0]? = some '.' from by decide] at e4
      have hno : ∀ p, p < 8 → 2 ≤ p → ¬ (some '.' = dotDeinitSemi[p]?) := by decide
      exact hno (1 + v.length) (by omega) (by omega) e4
  by_cases hu26 : 2 ≤ u2 ∧ u2 ≤ 6
  · have e3 : orig[j + (v.length + u2) - 1]? = dotDeinitSemi[u2 - 1]? :=
      hCj2 _ (u2 - 1) (by omega) (by omega)
    have hword : ∀ p, p < 6 → 1 ≤ p →
        isWordChar ((dotDeinitSemi[p]?).getD ' ') = true := by decide
    have hnw := hnwi
    unfold noWordBefore at hnw
    rw [if_neg (by simp; omega)] at hnw
    rw [List.getD_eq_getElem?_getD, e3] at hnw
    rw [hword (u2 - 1) (by omega) (by omega)] at hnw
    exact absurd hnw (by decide)
  · have e5 : (dotDeinitSemi[u2]?).getD ' ' = v[0] := by
      rw [← e2]
      rfl
    have hnotword : ∀ p, p < 10 → ¬ (p = 1) → ¬ (2 ≤ p ∧ p ≤ 6) →
        isWordChar ((dotDeinitSemi[p]?).getD ' ') = false := by decide
    have hfin := hnotword u2 hu2 hu1 hu26
    rw [e5, hword0] at hfin
    exact absurd hfin (by decide)

/-- C2: the cleanup-call rewrites of `fix_arraylist_deinit.fix_test_file`
never mutate a matched deinit-call occurrence that is judged inside a line
comment or string literal (a `//` marker earlier on its line, or an odd
count of unescaped quotes before it): for either pattern, a match at such a
position is emitted byte-for-byte unchanged in the output, with the scan
resuming after it. -/
theorem c2_comment_string_safety (orig v alloc : List Char) (i n : Nat)
    (hv : wfVar v)
    (hin : isInsideCommentOrString orig i = true) :
    (matchDeferAt v orig i = some n →
      ∃ a, runSkipSub (matchDeferAt v) (deferRepl v alloc) orig =
        a ++ (orig.drop i).take n ++
          subSkip orig (matchDeferAt v) (deferRepl v alloc) 0
            (orig.drop (i + n)) (i + n)) ∧
    (matchDeinitAt v orig i = some n →
      ∃ a, runSkipSub (matchDeinitAt v) (deinitRepl v alloc) orig =
        a ++ (orig.drop i).take n ++
          subSkip orig (matchDeinitAt v) (deinitRepl v alloc) 0
            (orig.drop (i + n)) (i + n)) := by
  constructor
  · intro hm
    have hB : ∀ i2 n2, matchDeferAt v orig i2 = some n2 →
        1 ≤ n2 ∧ i2 + n2 ≤ orig.length := by
      intro i2 n2 h2
      obtain ⟨_, W, _, _, _, hn2, hle⟩ := matchDeferAt_some_elim h2
      exact ⟨by omega, hle⟩
    have hNO : ∀ j n2, matchDeferAt v orig j = some n2 → j < i → i < j + n2 → False :=
      fun j n2 h2 hjlt hjov => matchDeferAt_no_overlap hv h2 hm hjlt hjov
    have hr := subSkip_reach orig (matchDeferAt v) (deferRepl v alloc)
      hB hNO hm hin i 0 (by omega)
    simpa [runSkipSub] using hr
  · intro hm
    have hB : ∀ i2 n2, matchDeinitAt v orig i2 = some n2 →
        1 ≤ n2 ∧ i2 + n2 ≤ orig.length := by
      intro i2 n2 h2
      obtain ⟨_, _, hn2, hle⟩ := matchDeinitAt_some_elim h2
      exact ⟨by omega, hle⟩
    have hNO : ∀ j n2, matchDeinitAt v orig j = some n2 → j < i → i < j + n2 → False :=
      fun j n2 h2 hjlt hjov => matchDeinitAt_no_overlap hv h2 hm hjlt hjov
    have hr := subSkip_reach orig (matchDeinitAt v) (deinitRepl v alloc)
      hB hNO hm hin i 0 (by omega)
    simpa [runSkipSub] using hr

/-!
## Idempotence of `fix_tests.py` and `fix_arraylist_deinit.py`

### Scan-event framework
-/

theorem take_reverse_succ {u : List Char} {j : Nat} {c : Char} {rest : List Char}
    (h : u.drop j = c :: rest) :
    (u.take (j + 1)).reverse = c :: (u.take j).reverse := by
  have h1 : u.take (j + 1) = u.take j ++ [c] := by
    rw [show j + 1 = j + 1 from rfl, List.take_add]
    rw [h]
    rfl
  rw [h1, List.reverse_append]
  rfl

theorem drop_succ_of_drop {u : List Char} {j : Nat} {c : Char} {rest : List Char}
    (h : u.drop j = c :: rest) : rest = u.drop (j + 1) := by
  have ht := List.tail_drop u j
  rw [h] at ht
  simpa using ht

/-- A scan whose matcher declines everywhere copies the text verbatim. -/
theorem runSub_id_of_NFat (m : List Char → List Char → Option (Nat × List Char))
    (u : List Char) (h : NFat m u) : runSub m u = u := by
  have main : ∀ (len : Nat) (rest : List Char) (j : Nat), rest.length = len →
      rest = u.drop j → subCtx m 0 ((u.take j).reverse) rest = rest := by
    intro len
    induction len using Nat.strong_induction_on with
    | _ len ih =>
      intro rest j hlen hrest
      cases rest with
      | nil => rfl
      | cons c rest' =>
        have hm := h j
        unfold mAt at hm
        rw [← hrest] at hm
        rw [subCtx_cons_none hm]
        have h2 : rest' = u.drop (j + 1) := drop_succ_of_drop hrest.symm
        have h3 := take_reverse_succ hrest.symm
        rw [← h3, ih rest'.length (by simp [hlen.symm]) rest' (j + 1) rfl h2]
  have h0 := main (u.length) u 0 rfl (by simp)
  simpa [runSub] using h0

/-- A skipping scan all of whose matches are protected copies the text
verbatim. -/
theorem runSkipSub_id_of_AllProt (m : List Char → Nat → Option Nat)
    (repl u : List Char) (hB : ∀ i n, m u i = some n → 1 ≤ n)
    (h : AllProt u m) : runSkipSub m repl u = u := by
  have main : ∀ (len : Nat) (rest : List Char) (i : Nat), rest.length = len →
      rest = u.drop i → subSkip u m repl 0 rest i = rest := by
    intro len
    induction len using Nat.strong_induction_on with
    | _ len ih =>
      intro rest i hlen hrest
      cases rest with
      | nil => rfl
      | cons c rest' =>
        have hilen : i < u.length := by
          have := List.length_drop i u
          rw [← hrest] at this
          simp at this
          omega
        have h2 : rest' = u.drop (i + 1) := drop_succ_of_drop hrest.symm
        have e1 := congrArg List.length hrest
        rw [List.length_drop] at e1
        simp only [List.length_cons] at e1 hlen
        cases hm : m u i with
        | none =>
          rw [hrest, subSkip_step_none u m repl hrest.symm hm, ← h2,
            ih rest'.length (by omega) rest' (i + 1) rfl h2]
          exact hrest
        | some n =>
          have hn := hB i n hm
          rw [hrest, subSkip_step_some u m repl hrest.symm hm hn,
            if_pos (h i n hm)]
          rw [ih (u.drop (i + n)).length (by rw [List.length_drop]; omega)
            (u.drop (i + n)) (i + n) rfl rfl]
          rw [← List.drop_drop]
          exact List.take_append_drop n (u.drop i)
  have h0 := main u.length u 0 rfl (by simp)
  simpa [runSkipSub] using h0

/-!
### Character-class facts and matcher eliminations for `fix_tests.py`
-/

theorem classQ_cases {p : Char}
    (h : (isPySpace p || p == '(' || p == ',' || p == '=') = true) :
    p = ' ' ∨ p = '\t' ∨ p = '\n' ∨ p = '\r' ∨ p = '\x0b' ∨ p = '\x0c' ∨
      p = '(' ∨ p = ',' ∨ p = '=' := by
  simp only [isPySpace, Bool.or_eq_true, beq_iff_eq] at h
  tauto

theorem lookQ_cases {q : Char}
    (h : (isPySpace q || q == '.' || q == '(' || q == ',' || q == ')') = true) :
    q = ' ' ∨ q = '\t' ∨ q = '\n' ∨ q = '\r' ∨ q = '\x0b' ∨ q = '\x0c' ∨
      q = '.' ∨ q = '(' ∨ q = ',' ∨ q = ')' := by
  simp only [isPySpace, Bool.or_eq_true, beq_iff_eq] at h
  tauto

theorem lookA_cases {q : Char}
    (h : (q == ',' || q == ')' || isPySpace q) = true) :
    q = ' ' ∨ q = '\t' ∨ q = '\n' ∨ q = '\r' ∨ q = '\x0b' ∨ q = '\x0c' ∨
      q = ',' ∨ q = ')' := by
  simp only [isPySpace, Bool.or_eq_true, beq_iff_eq] at h
  tauto

theorem classQ_not_word {p : Char}
    (h : (isPySpace p || p == '(' || p == ',' || p == '=') = true) :
    isWordChar p = false := by
  rcases classQ_cases h with h|h|h|h|h|h|h|h|h <;> subst h <;> decide

theorem lookQ_not_word {q : Char}
    (h : (isPySpace q || q == '.' || q == '(' || q == ',' || q == ')') = true) :
    isWordChar q = false := by
  rcases lookQ_cases h with h|h|h|h|h|h|h|h|h|h <;> subst h <;> decide

theorem lookA_not_word {q : Char}
    (h : (q == ',' || q == ')' || isPySpace q) = true) :
    isWordChar q = false := by
  rcases lookA_cases h with h|h|h|h|h|h|h|h <;> subst h <;> decide

theorem classQ_not_dot {p : Char}
    (h : (isPySpace p || p == '(' || p == ',' || p == '=') = true) :
    (('.' : Char) == p) = false := by
  rcases classQ_cases h with h|h|h|h|h|h|h|h|h <;> subst h <;> decide

theorem classQ_not_quote {p : Char}
    (h : (isPySpace p || p == '(' || p == ',' || p == '=') = true) :
    (p == '"' || p == '\'') = false := by
  rcases classQ_cases h with h|h|h|h|h|h|h|h|h <;> subst h <;> decide

theorem classQ_not_dq {p : Char}
    (h : (isPySpace p || p == '(' || p == ',' || p == '=') = true) :
    (('"' : Char) == p) = false := by
  rcases classQ_cases h with h|h|h|h|h|h|h|h|h <;> subst h <;> decide

theorem takeWhile_ws_append {W rest : List Char}
    (hW : ∀ c ∈ W, isPySpace c = true)
    (hrest : ∀ d, rest.head? = some d → isPySpace d = false) :
    (W ++ rest).takeWhile isPySpace = W := by
  induction W with
  | nil =>
    simp only [List.nil_append]
    cases rest with
    | nil => rfl
    | cons d rest' =>
      rw [List.takeWhile_cons, hrest d rfl]
      rfl
  | cons w W' ih =>
    rw [List.cons_append, List.takeWhile_cons, hW w (by simp)]
    simp only [if_true]
    rw [ih (fun c hc => hW c (by simp [hc]))]

theorem word_head_not_ws {t : List Char} (ht : t ≠ [])
    (htw : ∀ c ∈ t, isWordChar c = true) :
    ∀ d, t.head? = some d → isPySpace d = false := by
  intro d hd
  cases t with
  | nil => cases ht rfl
  | cons a t' =>
    simp only [List.head?_cons, Option.some.injEq] at hd
    subst hd
    exact isWordChar_not_space (htw a (by simp))

theorem mQualify_some_elim {t rp s : List Char} {x : Nat × List Char}
    (h : mQualify t rp s = some x) :
    ∃ p rp2 q s2, rp = p :: rp2 ∧
      (isPySpace p || p == '(' || p == ',' || p == '=') = true ∧
      s = t ++ (q :: s2) ∧
      (isPySpace q || q == '.' || q == '(' || q == ',' || q == ')') = true ∧
      x = (t.length, moduleDotLit ++ t) := by
  cases rp with
  | nil => simp [mQualify] at h
  | cons p rp2 =>
    simp only [mQualify] at h
    split at h
    · cases h
    next hcls =>
    split at h
    · cases h
    next =>
    split at h
    · cases h
    next =>
    split at h
    · cases h
    next =>
    cases heq1 : strLit t s with
    | none => simp only [heq1] at h; cases h
    | some r1 =>
      simp only [heq1] at h
      cases hr1 : r1 with
      | nil => rw [hr1] at h; simp at h
      | cons q s2b =>
        rw [hr1] at h
        have h2 : (if (isPySpace q || q == '.' || q == '(' || q == ',' || q == ')') = true
            then some (t.length, moduleDotLit ++ t) else none) = some x := h
        split at h2
        next hq =>
          injection h2 with hx
          have hcls2 : (isPySpace p || p == '(' || p == ',' || p == '=') = true := by
            revert hcls
            cases (isPySpace p || p == '(' || p == ',' || p == '=') <;> simp
          refine ⟨p, rp2, q, s2b, rfl, hcls2, ?_, hq, hx.symm⟩
          have hd1 := strLit_eq_some.mp heq1
          rw [hd1, hr1]
        next => cases h2

theorem mQualify_intro (t : List Char) {p : Char} (rp2 : List Char) {q : Char}
    (s2 : List Char)
    (hp : (isPySpace p || p == '(' || p == ',' || p == '=') = true)
    (hq : (isPySpace q || q == '.' || q == '(' || q == ',' || q == ')') = true) :
    mQualify t (p :: rp2) (t ++ (q :: s2)) = some (t.length, moduleDotLit ++ t) := by
  have h1 : (!(isPySpace p || p == '(' || p == ',' || p == '=')) = false := by
    rw [hp]
    rfl
  have h2 : moduleDotRev.isPrefixOf (p :: rp2) = false := by
    rw [show moduleDotRev = '.' :: "eludom".data from by decide]
    exact isPrefixOf_cons_false (classQ_not_dot hp)
  have h3 : (p == '"' || p == '\'') = false := classQ_not_quote hp
  have h4 : atImportQuoteRev.isPrefixOf (p :: rp2) = false := by
    rw [show atImportQuoteRev = '"' :: "(tropmi@".data from by decide]
    exact isPrefixOf_cons_false (classQ_not_dq hp)
  have h5 : strLit t (t ++ (q :: s2)) = some (q :: s2) := strLit_eq_some.mpr rfl
  simp only [mQualify, h1, h2, h3, h4, h5, Bool.false_eq_true, if_false, hq, if_true]

theorem mAnnot_some_elim {t rp s : List Char} {x : Nat × List Char}
    (h : mAnnot t rp s = some x) :
    ∃ W q s2, (∀ c ∈ W, isPySpace c = true) ∧
      s = ':' :: (W ++ (t ++ (q :: s2))) ∧
      (q == ',' || q == ')' || isPySpace q) = true ∧
      x = (1 + W.length + t.length, ": module.".data ++ t) := by
  simp only [mAnnot] at h
  cases heq1 : strLit [':'] s with
  | none => simp only [heq1] at h; cases h
  | some r1 =>
    simp only [heq1] at h
    cases heq2 : strLit t (r1.drop (r1.takeWhile isPySpace).length) with
    | none => simp only [heq2] at h; cases h
    | some r2 =>
      simp only [heq2] at h
      cases hr2 : r2 with
      | nil => rw [hr2] at h; simp at h
      | cons q s2b =>
        rw [hr2] at h
        have h2 : (if (q == ',' || q == ')' || isPySpace q) = true
            then some (1 + (r1.takeWhile isPySpace).length + t.length,
              ": module.".data ++ t) else none) = some x := h
        split at h2
        next hq =>
          injection h2 with hx
          have hd1 := strLit_eq_some.mp heq1
          have hWws : ∀ c ∈ r1.takeWhile isPySpace, isPySpace c = true :=
            fun c hc => List.mem_takeWhile_imp hc
          have hdropW : r1.drop (r1.takeWhile isPySpace).length =
              r1.dropWhile isPySpace := drop_takeWhile_len isPySpace r1
          have hd2 : r1.dropWhile isPySpace = t ++ r2 := by
            have h3 := strLit_eq_some.mp heq2
            rw [hdropW] at h3
            exact h3
          refine ⟨r1.takeWhile isPySpace, q, s2b, hWws, ?_, hq, hx.symm⟩
          rw [hd1]
          have hr1 : r1 = r1.takeWhile isPySpace ++ (t ++ (q :: s2b)) := by
            conv_lhs => rw [← List.takeWhile_append_dropWhile (p := isPySpace) (l := r1)]
            rw [hd2, hr2]
          rw [← hr1]
          rfl
        next => cases h2

theorem mAnnot_intro (t : List Char) (ht : t ≠ [])
    (htw : ∀ c ∈ t, isWordChar c = true) (rp : List Char) {W : List Char}
    {q : Char} (s2 : List Char) (hW : ∀ c ∈ W, isPySpace c = true)
    (hq : (q == ',' || q == ')' || isPySpace q) = true) :
    mAnnot t rp (':' :: (W ++ (t ++ (q :: s2)))) =
      some (1 + W.length + t.length, ": module.".data ++ t) := by
  have h1 : strLit [':'] (':' :: (W ++ (t ++ (q :: s2)))) =
      some (W ++ (t ++ (q :: s2))) := strLit_eq_some.mpr rfl
  have hTW : (W ++ (t ++ (q :: s2))).takeWhile isPySpace = W :=
    takeWhile_ws_append hW (by
      intro d hd
      cases t with
      | nil => cases ht rfl
      | cons a t2 =>
        simp only [List.cons_append, List.head?_cons, Option.some.injEq] at hd
        subst hd
        exact isWordChar_not_space (htw a (by simp)))
  have h5 : strLit t (t ++ (q :: s2)) = some (q :: s2) := strLit_eq_some.mpr rfl
  simp only [mAnnot, h1, hTW, List.drop_left, h5, hq, if_true]

theorem foldl_first_some {β : Type} (f : Option β → List Char → Option β)
    (hsome : ∀ r nm, f (some r) nm = some r) :
    ∀ (l : List (List Char)) (acc : Option β) (x : β),
      l.foldl f acc = some x → acc = some x ∨ ∃ nm ∈ l, f none nm = some x := by
  intro l
  induction l with
  | nil =>
    intro acc x h
    exact Or.inl h
  | cons a l ih =>
    intro acc x h
    rw [List.foldl_cons] at h
    rcases ih (f acc a) x h with h1 | h1
    · cases acc with
      | some r =>
        rw [hsome r a] at h1
        exact Or.inl h1
      | none => exact Or.inr ⟨a, by simp, h1⟩
    · obtain ⟨nm, hm, hgnm⟩ := h1
      exact Or.inr ⟨nm, by simp [hm], hgnm⟩

theorem foldl_first_none {β : Type} (f : Option β → List Char → Option β)
    (hsome : ∀ r nm, f (some r) nm = some r) :
    ∀ (l : List (List Char)) (acc : Option β),
      l.foldl f acc = none → acc = none ∧ ∀ nm ∈ l, f none nm = none := by
  intro l
  induction l with
  | nil =>
    intro acc h
    exact ⟨h, by simp⟩
  | cons a l ih =>
    intro acc h
    rw [List.foldl_cons] at h
    obtain ⟨h1, h2⟩ := ih (f acc a) h
    have hacc : acc = none := by
      cases acc with
      | some r => rw [hsome r a] at h1; cases h1
      | none => rfl
    subst hacc
    refine ⟨rfl, ?_⟩
    intro nm hm
    rcases List.mem_cons.mp hm with h3 | h3
    · subst h3
      exact h1
    · exact h2 nm h3

theorem foldl_first_ne_none {β : Type} (f : Option β → List Char → Option β)
    (hsome : ∀ r nm, f (some r) nm = some r)
    (l : List (List Char)) (acc : Option β) {nm : List Char} (hm : nm ∈ l)
    (hne : f none nm ≠ none) : l.foldl f acc ≠ none := by
  intro h
  exact hne ((foldl_first_none f hsome l acc h).2 nm hm)

theorem mDeinitAlloc_some_elim {rp s : List Char} {x : Nat × List Char}
    (h : mDeinitAlloc rp s = some x) :
    (∀ p rp2, rp = p :: rp2 → isWordChar p = false) ∧
    ∃ nm, nm ∈ deinitNames ∧ ∃ W s2, (∀ c ∈ W, isPySpace c = true) ∧
      s = nm ++ (W ++ (dotDeinitParen ++ s2)) ∧
      x = (nm.length + W.length + 9, nm ++ ".deinit(alloc)".data) := by
  simp only [mDeinitAlloc] at h
  split at h
  · cases h
  next hbOk =>
  constructor
  · intro p rp2 hrp
    subst hrp
    have hb2 : ¬(!(!isWordChar p)) = true := hbOk
    cases hw : isWordChar p with
    | false => rfl
    | true =>
      rw [hw] at hb2
      simp at hb2
  · rcases foldl_first_some _ (fun r nm => rfl) deinitNames none x h with h1 | h1
    · cases h1
    obtain ⟨nm, hmem, hg⟩ := h1
    refine ⟨nm, hmem, ?_⟩
    cases heq1 : strLit nm s with
    | none => simp only [heq1] at hg; cases hg
    | some r1 =>
      simp only [heq1] at hg
      cases heq2 : strLit dotDeinitParen (r1.drop (r1.takeWhile isPySpace).length) with
      | none => simp only [heq2] at hg; cases hg
      | some r5 =>
        simp only [heq2] at hg
        injection hg with hx
        have hd1 := strLit_eq_some.mp heq1
        have hWws : ∀ c ∈ r1.takeWhile isPySpace, isPySpace c = true :=
          fun c hc => List.mem_takeWhile_imp hc
        have hdropW : r1.drop (r1.takeWhile isPySpace).length =
            r1.dropWhile isPySpace := drop_takeWhile_len isPySpace r1
        have hd2 : r1.dropWhile isPySpace = dotDeinitParen ++ r5 := by
          have h3 := strLit_eq_some.mp heq2
          rw [hdropW] at h3
          exact h3
        refine ⟨r1.takeWhile isPySpace, r5, hWws, ?_, ?_⟩
        · rw [hd1]
          have hr1 : r1 = r1.takeWhile isPySpace ++ (dotDeinitParen ++ r5) := by
            conv_lhs =>
              rw [← List.takeWhile_append_dropWhile (p := isPySpace) (l := r1)]
            rw [hd2]
          rw [← hr1]
        · rw [show dotDeinitParen.length = 9 from by decide] at hx
          exact hx.symm

theorem mDeinitAlloc_isSome_intro {rp : List Char}
    (hb : ∀ p rp2, rp = p :: rp2 → isWordChar p = false)
    {nm W s2 : List Char} (hnm : nm ∈ deinitNames)
    (hW : ∀ c ∈ W, isPySpace c = true) :
    ∃ z, mDeinitAlloc rp (nm ++ (W ++ (dotDeinitParen ++ s2))) = some z := by
  have hTW : (W ++ (dotDeinitParen ++ s2)).takeWhile isPySpace = W :=
    takeWhile_ws_append hW (by
      intro d hd
      rw [show dotDeinitParen = '.' :: "deinit()".data from by decide] at hd
      simp only [List.cons_append, List.head?_cons, Option.some.injEq] at hd
      subst hd
      decide)
  have hfne : deinitNames.foldl
      (fun acc nm2 =>
        match acc with
        | some r => some r
        | none =>
          match strLit nm2 (nm ++ (W ++ (dotDeinitParen ++ s2))) with
          | none => none
          | some r1 =>
            let w := (r1.takeWhile isPySpace).length
            match strLit dotDeinitParen (r1.drop w) with
            | none => none
            | some _ =>
              some (nm2.length + w + dotDeinitParen.length, nm2 ++ ".deinit(alloc)".data))
      none ≠ none := by
    refine foldl_first_ne_none _ (fun r nm2 => rfl) deinitNames none hnm ?_
    show (match strLit nm (nm ++ (W ++ (dotDeinitParen ++ s2))) with
      | none => none
      | some r1 =>
        let w := (r1.takeWhile isPySpace).length
        match strLit dotDeinitParen (r1.drop w) with
        | none => none
        | some _ =>
          some (nm.length + w + dotDeinitParen.length, nm ++ ".deinit(alloc)".data)) ≠ none
    rw [strLit_eq_some.mpr (rfl : nm ++ (W ++ (dotDeinitParen ++ s2)) =
      nm ++ (W ++ (dotDeinitParen ++ s2)))]
    simp only [hTW, List.drop_left]
    rw [strLit_eq_some.mpr (rfl : dotDeinitParen ++ s2 = dotDeinitParen ++ s2)]
    simp
  obtain ⟨z, hz⟩ := Option.ne_none_iff_exists'.mp hfne
  refine ⟨z, ?_⟩
  cases rp with
  | nil => exact hz
  | cons p rp2 =>
    have hw : isWordChar p = false := hb p rp2 rfl
    simp only [mDeinitAlloc, hw]
    exact hz

theorem lastOpt_none (A : List Char) : lastOpt none A = A.getLast? := by
  unfold lastOpt
  cases A.getLast? <;> rfl

theorem lastOpt_of_ne_nil (lc : Option Char) {A : List Char} (h : A ≠ []) :
    lastOpt lc A = A.getLast? := by
  unfold lastOpt
  cases hg : A.getLast? with
  | none => exact absurd (List.getLast?_eq_none_iff.mp hg) h
  | some c => rfl

theorem lastOpt_append (lc : Option Char) (X A : List Char) :
    lastOpt lc (X ++ A) = lastOpt (lastOpt lc X) A := by
  induction A using List.reverseRecOn with
  | nil => simp [lastOpt]
  | append_singleton as a _ =>
    rw [← List.append_assoc]
    unfold lastOpt
    rw [List.getLast?_concat, List.getLast?_concat]

theorem lastOpt_take_ctx {u : List Char} {j : Nat} {lc : Option Char}
    (hlc : lc = prevCharAt u j) (A : List Char) :
    lastOpt none (u.take j ++ A) = lastOpt lc A := by
  rw [lastOpt_append, lastOpt_none, hlc]
  rfl

theorem prevCharAt_head (u : List Char) (j : Nat) :
    ((u.take j).reverse).head? = prevCharAt u j := by
  rw [List.head?_reverse]
  rfl

theorem seg_ctx {u : List Char} {j p : Nat} {lc : Option Char}
    (hlc : lc = prevCharAt u j) (hjp : j ≤ p) (hp : p ≤ u.length) :
    lastOpt lc ((u.drop j).take (p - j)) = prevCharAt u p := by
  rcases Nat.eq_or_lt_of_le hjp with h | h
  · subst h
    simp only [Nat.sub_self, List.take_zero]
    rw [hlc]
    rfl
  · have hseg : u.take p = u.take j ++ (u.drop j).take (p - j) := by
      rw [← List.take_add]
      congr 1
      omega
    have hlen : ((u.drop j).take (p - j)).length = p - j := by
      rw [List.length_take, List.length_drop]
      exact Nat.min_eq_left (by omega)
    have hne : (u.drop j).take (p - j) ≠ [] := by
      intro hcon
      rw [hcon] at hlen
      simp at hlen
      omega
    rw [lastOpt_of_ne_nil _ hne]
    unfold prevCharAt
    rw [hseg, List.getLast?_append_of_ne_nil _ hne]

theorem evChain_weaken {m : List Char → List Char → Option (Nat × List Char)}
    {u : List Char} {j : Nat} {evs : List (Nat × Nat × List Char)}
    (h : EvChain m u (j + 1) evs) (hj : mAt m u j = none) : EvChain m u j evs := by
  cases h with
  | nil _ hgap =>
    refine EvChain.nil j (fun q hq => ?_)
    rcases Nat.eq_or_lt_of_le hq with h1 | h1
    · rw [← h1]
      exact hj
    · exact hgap q (by omega)
  | cons _ p n r evs hjp hgap hm hn hp hch =>
    refine EvChain.cons j p n r evs (by omega) (fun q hq1 hq2 => ?_) hm hn hp hch
    rcases Nat.eq_or_lt_of_le hq1 with h1 | h1
    · rw [← h1]
      exact hj
    · exact hgap q (by omega) hq2

theorem evChain_head_bound {m : List Char → List Char → Option (Nat × List Char)}
    {u : List Char} {j p n : Nat} {r : List Char}
    {evs : List (Nat × Nat × List Char)}
    (h : EvChain m u j ((p, n, r) :: evs)) : j ≤ p := by
  cases h with
  | cons _ _ _ _ _ hjp _ _ _ _ _ => exact hjp

theorem renderEv_cons_shift {u : List Char} {j : Nat} {c : Char}
    {rest : List Char} (hdrop : u.drop j = c :: rest)
    {evs : List (Nat × Nat × List Char)}
    (hbound : match evs with | [] => True | (p, _, _) :: _ => j + 1 ≤ p) :
    renderEv u j evs = c :: renderEv u (j + 1) evs := by
  cases evs with
  | nil =>
    show u.drop j = c :: u.drop (j + 1)
    rw [hdrop, ← drop_succ_of_drop hdrop]
  | cons e evs2 =>
    obtain ⟨p, n, r⟩ := e
    have hp : j + 1 ≤ p := hbound
    show (u.drop j).take (p - j) ++ (r ++ renderEv u (p + n) evs2) =
      c :: ((u.drop (j + 1)).take (p - (j + 1)) ++ (r ++ renderEv u (p + n) evs2))
    rw [hdrop, show p - j = (p - (j + 1)) + 1 from by omega, List.take_succ_cons,
      ← drop_succ_of_drop hdrop]
    rfl

theorem subCtx_chain (m : List Char → List Char → Option (Nat × List Char))
    (u : List Char)
    (hpos : ∀ rp s n r, m rp s = some (n, r) → 1 ≤ n)
    (hnil : ∀ rp, m rp [] = none) :
    ∀ (fuel j : Nat), u.length - j ≤ fuel → ∃ evs, EvChain m u j evs ∧
      subCtx m 0 ((u.take j).reverse) (u.drop j) = renderEv u j evs := by
  have base : ∀ j, u.length ≤ j → ∃ evs, EvChain m u j evs ∧
      subCtx m 0 ((u.take j).reverse) (u.drop j) = renderEv u j evs := by
    intro j hj
    have hdrop : u.drop j = [] := by
      rw [List.drop_eq_nil_iff]
      omega
    refine ⟨[], EvChain.nil j (fun q hq => ?_), ?_⟩
    · unfold mAt
      rw [show u.drop q = [] from by rw [List.drop_eq_nil_iff]; omega]
      exact hnil _
    · rw [hdrop]
      show subCtx m 0 ((u.take j).reverse) [] = u.drop j
      rw [hdrop]
      rfl
  intro fuel
  induction fuel with
  | zero =>
    intro j hj
    exact base j (by omega)
  | succ fuel ih =>
    intro j hj
    cases hdrop : u.drop j with
    | nil =>
      have hb := base j (by rw [List.drop_eq_nil_iff] at hdrop; omega)
      rwa [hdrop] at hb
    | cons c rest =>
      have hjlen : j < u.length := by
        by_contra hcon
        rw [show u.drop j = [] from by rw [List.drop_eq_nil_iff]; omega] at hdrop
        cases hdrop
      cases hm : mAt m u j with
      | none =>
        obtain ⟨evs, hch, heq⟩ := ih (j + 1) (by omega)
        refine ⟨evs, evChain_weaken hch hm, ?_⟩
        have hm2 : m ((u.take j).reverse) (c :: rest) = none := by
          unfold mAt at hm
          rw [hdrop] at hm
          exact hm
        rw [subCtx_cons_none hm2]
        rw [take_reverse_succ hdrop] at heq
        rw [← drop_succ_of_drop hdrop] at heq
        rw [heq]
        refine (renderEv_cons_shift hdrop ?_).symm
        cases evs with
        | nil => trivial
        | cons e evs2 =>
          obtain ⟨p, n, r⟩ := e
          exact evChain_head_bound hch
      | some x =>
        obtain ⟨n, r⟩ := x
        have hn : 1 ≤ n := hpos _ _ _ _ hm
        obtain ⟨evs, hch, heq⟩ := ih (j + n) (by omega)
        refine ⟨(j, n, r) :: evs,
          EvChain.cons j j n r evs le_rfl (fun q h1 h2 => absurd h1 (by omega))
            hm hn hjlen hch, ?_⟩
        have hm2 : m ((u.take j).reverse) (c :: rest) = some (n, r) := by
          unfold mAt at hm
          rw [hdrop] at hm
          exact hm
        rw [subCtx_cons_some hm2]
        rw [subCtx_skip_eq m (n - 1) (c :: (u.take j).reverse) rest]
        have e1 : (rest.take (n - 1)).reverse ++ c :: (u.take j).reverse =
            (u.take (j + n)).reverse := by
          have h1 : u.take (j + n) = u.take j ++ (c :: rest.take (n - 1)) := by
            rw [List.take_add, hdrop]
            congr 1
            cases n with
            | zero => omega
            | succ k => simp [List.take_succ_cons]
          rw [h1, List.reverse_append]
          simp
        have e2 : rest.drop (n - 1) = u.drop (j + n) := by
          rw [drop_succ_of_drop hdrop, List.drop_drop]
          congr 1
          omega
        rw [e1, e2, heq]
        show r ++ renderEv u (j + n) evs = renderEv u j ((j, n, r) :: evs)
        show r ++ renderEv u (j + n) evs =
          (u.drop j).take (j - j) ++ (r ++ renderEv u (j + n) evs)
        rw [Nat.sub_self, List.take_zero, List.nil_append]

theorem runSub_render (m : List Char → List Char → Option (Nat × List Char))
    (u : List Char)
    (hpos : ∀ rp s n r, m rp s = some (n, r) → 1 ≤ n)
    (hnil : ∀ rp, m rp [] = none) :
    ∃ evs, EvChain m u 0 evs ∧ runSub m u = renderEv u 0 evs := by
  obtain ⟨evs, hch, heq⟩ := subCtx_chain m u hpos hnil u.length 0 (by omega)
  exact ⟨evs, hch, by simpa [runSub] using heq⟩

theorem render_no_occ (mp : List Char → List Char → Option (Nat × List Char))
    (u : List Char) (isCore : List Char → Prop) (pCond : Option Char → Prop)
    (hCne : ∀ C, isCore C → C ≠ [])
    (HU : ∀ A C B, u = A ++ (C ++ B) → isCore C → pCond (lastOpt none A) →
      ∃ k, k < C.length ∧ mAt mp u (A.length + k) ≠ none)
    (Hrne : ∀ p n r, mAt mp u p = some (n, r) → r ≠ [])
    (Hr : ∀ p n r, mAt mp u p = some (n, r) → r.getLast? = prevCharAt u (p + n))
    (HB : ∀ p n r, mAt mp u p = some (n, r) → ∀ C c1 c2, isCore C → C = c1 ++ c2 →
      c1 ≠ [] → c2 ≠ [] → c1 <:+ u.take p → (∃ Z, c2 <+: r ++ Z) →
      pCond (lastOpt none (u.take (p - c1.length))) → False)
    (HC2 : ∀ p n r, mAt mp u p = some (n, r) → ∀ C, isCore C → ∀ r1 r2,
      r = r1 ++ r2 → r2 ≠ [] → (∃ Z, C <+: r2 ++ Z) →
      pCond (lastOpt (prevCharAt u p) r1) → False) :
    ∀ (evs : List (Nat × Nat × List Char)) (j : Nat) (lc : Option Char),
      EvChain mp u j evs → lc = prevCharAt u j →
      ¬ OccL isCore pCond lc (renderEv u j evs) := by
  intro evs
  induction evs with
  | nil =>
    intro j lc hch hlc hocc
    cases hch with
    | nil _ hgap =>
      obtain ⟨A, C, B, hw, hC, hpc⟩ := hocc
      have hw2 : u.drop j = A ++ (C ++ B) := hw
      have hjlen : j ≤ u.length := by
        by_contra hcon
        rw [show u.drop j = [] from by rw [List.drop_eq_nil_iff]; omega] at hw2
        rcases List.append_eq_nil.mp hw2.symm with ⟨h1, h2⟩
        rcases List.append_eq_nil.mp h2 with ⟨h3, h4⟩
        exact hCne C hC h3
      have hu : u = (u.take j ++ A) ++ (C ++ B) := by
        conv_lhs => rw [← List.take_append_drop j u]
        rw [hw2, List.append_assoc]
      obtain ⟨k, hk, hfire⟩ := HU (u.take j ++ A) C B hu hC
        (by rw [lastOpt_take_ctx hlc]; exact hpc)
      refine hfire (hgap _ ?_)
      rw [List.length_append, List.length_take]
      omega
  | cons e evs ih =>
    intro j lc hch hlc hocc
    obtain ⟨p, n, r⟩ := e
    cases hch with
    | cons _ _ _ _ _ hjp hgap hm hn hplen hch2 =>
      obtain ⟨A, C, B, hw, hC, hpc⟩ := hocc
      have hCne2 := hCne C hC
      have hrne := Hrne p n r hm
      have hplen2 : p ≤ u.length := le_of_lt hplen
      have hseglen : ((u.drop j).take (p - j)).length = p - j := by
        rw [List.length_take, List.length_drop]
        exact Nat.min_eq_left (by omega)
      have hptake : u.take p = u.take j ++ (u.drop j).take (p - j) := by
        rw [← List.take_add]
        congr 1
        omega
      have hw2 : (u.drop j).take (p - j) ++ (r ++ renderEv u (p + n) evs) =
          A ++ (C ++ B) := hw
      have hctx : lastOpt lc ((u.drop j).take (p - j)) = prevCharAt u p :=
        seg_ctx hlc hjp hplen2
      rcases List.append_eq_append_iff.mp hw2 with ⟨a1, hA, hY⟩ | ⟨c1, hseg, hY⟩
      · rcases List.append_eq_append_iff.mp hY with ⟨a2, ha1, hY2⟩ | ⟨c2, hr, hY2⟩
        · refine ih (p + n) (prevCharAt u (p + n)) hch2 rfl ⟨a2, C, B, hY2, hC, ?_⟩
          have heq : lastOpt lc A = lastOpt (prevCharAt u (p + n)) a2 := by
            rw [hA, ha1, lastOpt_append, lastOpt_append,
              lastOpt_of_ne_nil _ hrne, Hr p n r hm]
          rw [← heq]
          exact hpc
        · by_cases hc2 : c2 = []
          · subst hc2
            rw [List.append_nil] at hr
            subst hr
            simp only [List.nil_append] at hY2
            refine ih (p + n) (prevCharAt u (p + n)) hch2 rfl
              ⟨[], C, B, hY2.symm, hC, ?_⟩
            have heq : lastOpt lc A = lastOpt (prevCharAt u (p + n)) [] := by
              rw [hA, lastOpt_append, lastOpt_of_ne_nil _ hrne, Hr p n r hm]
              rfl
            rw [← heq]
            exact hpc
          · refine HC2 p n r hm C hC a1 c2 hr hc2
              ⟨renderEv u (p + n) evs, B, hY2⟩ ?_
            have heq : lastOpt lc A = lastOpt (prevCharAt u p) a1 := by
              rw [hA, lastOpt_append, hctx]
            rw [← heq]
            exact hpc
      · by_cases hc1 : c1 = []
        · subst hc1
          rw [List.append_nil] at hseg
          simp only [List.nil_append] at hY
          refine HC2 p n r hm C hC [] r (by simp) hrne
            ⟨renderEv u (p + n) evs, B, hY⟩ ?_
          have heq : lastOpt lc A = lastOpt (prevCharAt u p) [] := by
            rw [← hseg, hctx]
            rfl
          rw [← heq]
          exact hpc
        · have hAc1 : u.take p = (u.take j ++ A) ++ c1 := by
            rw [hptake, hseg, List.append_assoc]
          have hlens : j + A.length + c1.length = p := by
            have := congrArg List.length hseg
            rw [List.length_append, hseglen] at this
            omega
          rcases List.append_eq_append_iff.mp hY with ⟨m1, hc1eq, hY2⟩ |
            ⟨m2, hCeq, hY2⟩
          · have hu : u = (u.take j ++ A) ++ (C ++ (m1 ++ u.drop p)) := by
              conv_lhs => rw [← List.take_append_drop p u]
              rw [hAc1, hc1eq]
              simp [List.append_assoc]
            obtain ⟨k, hk, hfire⟩ := HU (u.take j ++ A) C (m1 ++ u.drop p) hu hC
              (by rw [lastOpt_take_ctx hlc]; exact hpc)
            have hclen : C.length + m1.length = c1.length := by
              have := congrArg List.length hc1eq
              rw [List.length_append] at this
              omega
            refine hfire (hgap _ ?_ ?_)
            · rw [List.length_append, List.length_take]
              omega
            · rw [List.length_append, List.length_take]
              have : (min j u.length) = j := Nat.min_eq_left (by omega)
              omega
          · by_cases hm2 : m2 = []
            · subst hm2
              rw [List.append_nil] at hCeq
              subst hCeq
              have hu : u = (u.take j ++ A) ++ (C ++ u.drop p) := by
                conv_lhs => rw [← List.take_append_drop p u]
                rw [hAc1]
                simp [List.append_assoc]
              obtain ⟨k, hk, hfire⟩ := HU (u.take j ++ A) C (u.drop p) hu hC
                (by rw [lastOpt_take_ctx hlc]; exact hpc)
              refine hfire (hgap _ ?_ ?_)
              · rw [List.length_append, List.length_take]
                omega
              · rw [List.length_append, List.length_take]
                have : (min j u.length) = j := Nat.min_eq_left (by omega)
                omega
            · refine HB p n r hm C c1 m2 hC hCeq hc1 hm2
                ⟨u.take j ++ A, hAc1.symm⟩
                ⟨renderEv u (p + n) evs, B, hY2.symm⟩ ?_
              have htake2 : u.take (p - c1.length) = u.take j ++ A := by
                have h1 : p - c1.length = j + A.length := by omega
                rw [h1]
                calc u.take (j + A.length)
                    = (u.take p).take (j + A.length) := by
                      rw [List.take_take]
                      congr 1
                      omega
                  _ = ((u.take j ++ A) ++ c1).take (j + A.length) := by rw [hAc1]
                  _ = u.take j ++ A := by
                      rw [show j + A.length = (u.take j ++ A).length from by
                        rw [List.length_append, List.length_take]
                        have : (min j u.length) = j := Nat.min_eq_left (by omega)
                        omega]
                      exact List.take_left (u.take j ++ A) c1
              rw [htake2, lastOpt_take_ctx hlc]
              exact hpc

theorem isClassQ_of_ws {c : Char} (h : isPySpace c = true) : isClassQ c = true := by
  unfold isClassQ
  rw [h]
  rfl

theorem isLookQ_of_isLookA {q : Char} (h : isLookA q = true) : isLookQ q = true := by
  have h2 : (q == ',' || q == ')' || isPySpace q) = true := h
  rcases lookA_cases h2 with h3|h3|h3|h3|h3|h3|h3|h3 <;> subst h3 <;> decide

theorem mDeclInit_some_elim {t rp s : List Char} {x : Nat × List Char}
    (h : mDeclInit t rp s = some x) :
    (∃ pre c rest2, s = (pre ++ [c]) ++ (t ++ ('.' :: rest2)) ∧ isClassQ c = true) ∧
      1 ≤ x.1 := by
  simp only [mDeclInit] at h
  split at h
  · cases h
  next =>
  split at h
  · cases h
  next kw r1 hkw =>
  have hr0 : s.drop (s.takeWhile isPySpace).length = kw ++ r1 := by
    cases hv : strLit varLit (s.drop (s.takeWhile isPySpace).length) with
    | some rv =>
      simp only [hv] at hkw
      injection hkw with h1
      injection h1 with h2 h3
      subst h2
      subst h3
      exact strLit_eq_some.mp hv
    | none =>
      simp only [hv] at hkw
      cases hc : strLit constLit (s.drop (s.takeWhile isPySpace).length) with
      | some rc =>
        simp only [hc] at hkw
        injection hkw with h1
        injection h1 with h2 h3
        subst h2
        subst h3
        exact strLit_eq_some.mp hc
      | none =>
        simp only [hc] at hkw
        cases hkw
  split at h
  · cases h
  next hw1 =>
  split at h
  · cases h
  next hname =>
  cases heq2 : strLit ['='] ((r1.drop (r1.takeWhile isPySpace).length).drop
      ((r1.drop (r1.takeWhile isPySpace).length).takeWhile isWordChar).length |>.drop
      (((r1.drop (r1.takeWhile isPySpace).length).drop
        ((r1.drop (r1.takeWhile isPySpace).length).takeWhile isWordChar).length
        ).takeWhile isPySpace).length) with
  | none => simp only [heq2] at h; cases h
  | some r4 =>
    simp only [heq2] at h
    cases heq3 : strLit t (r4.drop (r4.takeWhile isPySpace).length) with
    | none => simp only [heq3] at h; cases h
    | some r5 =>
      simp only [heq3] at h
      cases heq4 : strLit ['.'] r5 with
      | none => simp only [heq4] at h; cases h
      | some r6 =>
        simp only [heq4] at h
        injection h with hx
        constructor
        · have hds : s = s.takeWhile isPySpace ++ (kw ++ r1) := by
            conv_lhs =>
              rw [← List.takeWhile_append_dropWhile (p := isPySpace) (l := s)]
            rw [← drop_takeWhile_len, hr0]
          have hd1 : r1 = r1.takeWhile isPySpace ++
              r1.dropWhile isPySpace := (List.takeWhile_append_dropWhile _ _).symm
          have hd2 : r1.dropWhile isPySpace =
              (r1.dropWhile isPySpace).takeWhile isWordChar ++
              (r1.dropWhile isPySpace).dropWhile isWordChar :=
            (List.takeWhile_append_dropWhile _ _).symm
          have hd3 : (r1.dropWhile isPySpace).dropWhile isWordChar =
              ((r1.dropWhile isPySpace).dropWhile isWordChar).takeWhile isPySpace ++
              ('=' :: r4) := by
            have h5 : ((r1.dropWhile isPySpace).dropWhile isWordChar).dropWhile
                isPySpace = ['='] ++ r4 := by
              apply strLit_eq_some.mp
              rw [← heq2]
              simp only [drop_takeWhile_len]
            conv_lhs =>
              rw [← List.takeWhile_append_dropWhile (p := isPySpace)
                (l := (r1.dropWhile isPySpace).dropWhile isWordChar)]
            rw [h5]
            rfl
          have hd4 : r4 = r4.takeWhile isPySpace ++ (t ++ ('.' :: r6)) := by
            have h6 : r4.dropWhile isPySpace = t ++ r5 := by
              rw [← drop_takeWhile_len]
              exact strLit_eq_some.mp heq3
            have h7 : r5 = '.' :: r6 := strLit_eq_some.mp heq4
            conv_lhs =>
              rw [← List.takeWhile_append_dropWhile (p := isPySpace) (l := r4)]
            rw [h6, h7]
          rcases List.eq_nil_or_concat (r4.takeWhile isPySpace) with hW3 | ⟨W3b, cw, hW3⟩
          · refine ⟨s.takeWhile isPySpace ++ kw ++ r1.takeWhile isPySpace ++
              (r1.dropWhile isPySpace).takeWhile isWordChar ++
              ((r1.dropWhile isPySpace).dropWhile isWordChar).takeWhile isPySpace,
              '=', r6, ?_, by decide⟩
            conv_lhs => rw [hds, hd1, hd2, hd3, hd4, hW3]
            simp [List.append_assoc]
          · have hcw : isPySpace cw = true := by
              refine List.mem_takeWhile_imp (l := r4) (p := isPySpace) ?_
              rw [hW3]
              simp
            refine ⟨s.takeWhile isPySpace ++ kw ++ r1.takeWhile isPySpace ++
              (r1.dropWhile isPySpace).takeWhile isWordChar ++
              ((r1.dropWhile isPySpace).dropWhile isWordChar).takeWhile isPySpace ++
              ('=' :: W3b), cw, r6, ?_, isClassQ_of_ws hcw⟩
            conv_lhs => rw [hds, hd1, hd2, hd3, hd4, hW3]
            simp [List.append_assoc]
        · rw [← hx]
          exact Nat.succ_le_succ (Nat.zero_le _)

theorem NFat_mQualify_of_NoQ {t w : List Char} (h : NoQ t w) :
    NFat (mQualify t) w := by
  intro j
  cases hx : mAt (mQualify t) w j with
  | none => rfl
  | some x =>
    exfalso
    obtain ⟨p, rp2, q, s2, hrev, hcls, hs, hq, hxv⟩ := mQualify_some_elim hx
    apply h
    have htk : w.take j = rp2.reverse ++ [p] := by
      have h2 := congrArg List.reverse hrev
      rw [List.reverse_reverse] at h2
      rw [h2, List.reverse_cons]
    refine ⟨rp2.reverse, p :: (t ++ [q]), s2, ?_, ⟨p, q, hcls, hq, rfl⟩, trivial⟩
    conv_lhs => rw [← List.take_append_drop j w]
    rw [htk, hs]
    simp

theorem NFat_mDeclInit_of_NoQ {t w : List Char} (h : NoQ t w) :
    NFat (mDeclInit t) w := by
  intro j
  cases hx : mAt (mDeclInit t) w j with
  | none => rfl
  | some x =>
    exfalso
    obtain ⟨⟨pre, c, rest2, hs, hcls⟩, _⟩ := mDeclInit_some_elim hx
    apply h
    refine ⟨w.take j ++ pre, c :: (t ++ ['.']), rest2, ?_,
      ⟨c, '.', hcls, by decide, rfl⟩, trivial⟩
    conv_lhs => rw [← List.take_append_drop j w]
    rw [hs]
    simp

theorem NFat_mAnnot_of_NoQ_NoC {t w : List Char} (h1 : NoQ t w) (h2 : NoC t w) :
    NFat (mAnnot t) w := by
  intro j
  cases hx : mAt (mAnnot t) w j with
  | none => rfl
  | some x =>
    exfalso
    obtain ⟨W, q, s2, hW, hs, hq, hxv⟩ := mAnnot_some_elim hx
    induction W using List.reverseRecOn with
    | nil =>
      apply h2
      refine ⟨w.take j, ':' :: (t ++ [q]), s2, ?_, ⟨q, hq, rfl⟩, trivial⟩
      conv_lhs => rw [← List.take_append_drop j w]
      rw [hs]
      simp
    | append_singleton Wb cw _ =>
      apply h1
      refine ⟨w.take j ++ (':' :: Wb), cw :: (t ++ [q]), s2, ?_,
        ⟨cw, q, isClassQ_of_ws (hW cw (by simp)), isLookQ_of_isLookA hq, rfl⟩,
        trivial⟩
      conv_lhs => rw [← List.take_append_drop j w]
      rw [hs]
      simp

theorem NFat_mDeinitAlloc_of_NoDe {w : List Char} (h : NoDe w) :
    NFat mDeinitAlloc w := by
  intro j
  cases hx : mAt mDeinitAlloc w j with
  | none => rfl
  | some x =>
    exfalso
    obtain ⟨hb, nm, hnm, W, s2, hW, hs, hxv⟩ := mDeinitAlloc_some_elim hx
    apply h
    refine ⟨w.take j, nm ++ (W ++ dotDeinitParen), s2, ?_,
      ⟨nm, W, hnm, hW, rfl⟩, ?_⟩
    · conv_lhs => rw [← List.take_append_drop j w]
      rw [hs]
      simp
    · intro c hc
      have hgl : (w.take j).getLast? = some c := by
        cases hg : (w.take j).getLast? with
        | none =>
          rw [show lastOpt none (w.take j) = (w.take j).getLast? from
            lastOpt_none _, hg] at hc
          cases hc
        | some d =>
          rw [show lastOpt none (w.take j) = (w.take j).getLast? from
            lastOpt_none _, hg] at hc
          injection hc with hcd
          rw [hcd]
      have hrh : ((w.take j).reverse).head? = some c := by
        rw [List.head?_reverse]
        exact hgl
      cases hr : (w.take j).reverse with
      | nil => rw [hr] at hrh; cases hrh
      | cons p rp2 =>
        rw [hr] at hrh
        injection hrh with hpc
        rw [← hpc]
        exact hb p rp2 hr

theorem c2_witness :
    wfVar "lst".data ∧
    isInsideCommentOrString "// defer lst.deinit()\n".data 3 = true ∧
    matchDeferAt "lst".data "// defer lst.deinit()\n".data 3 = some 18 ∧
    (∃ a, runSkipSub (matchDeferAt "lst".data) (deferRepl "lst".data "alloc".data)
        "// defer lst.deinit()\n".data =
      a ++ ("// defer lst.deinit()\n".data.drop 3).take 18 ++
        subSkip "// defer lst.deinit()\n".data (matchDeferAt "lst".data)
          (deferRepl "lst".data "alloc".data) 0
          ("// defer lst.deinit()\n".data.drop 21) 21) ∧
    (∃ a, runSkipSub (matchDeinitAt "lst".data) (deinitRepl "lst".data "alloc".data)
        "// lst.deinit();\n".data =
      a ++ ("// lst.deinit();\n".data.drop 3).take 13 ++
        subSkip "// lst.deinit();\n".data (matchDeinitAt "lst".data)
          (deinitRepl "lst".data "alloc".data) 0
          ("// lst.deinit();\n".data.drop 16) 16) :=
  ⟨by decide, by decide, by decide,
    (c2_comment_string_safety "// defer lst.deinit()\n".data "lst".data
      "alloc".data 3 18 (by decide) (by decide)).1 (by decide),
    (c2_comment_string_safety "// lst.deinit();\n".data "lst".data
      "alloc".data 3 13 (by decide) (by decide)).2 (by decide)⟩

end GhosttyAi
